import Mathlib

/-!
Verification of the AST hydration core of `protoc-gen-star` as vendored in
`protoc-gen-validate` (`vendor/github.com/lyft/protoc-gen-star/ast.go`).

The Go code builds a fully connected entity graph (the `graph` struct) from a
`CodeGeneratorRequest`: a registry from fully-qualified name (FQN) to entity,
a package map, and a target-file map.  Entities are heap objects referenced by
pointer; here they live in an append-only table `Graph.ents` and a "pointer"
is the allocation index into that table, so pointer identity in Go is index
equality here.  The fatal `Debugger.Fail/Failf` channel aborts construction,
which is modelled with `Except Err`.
-/

namespace pgs

/-- Mirrors `descriptor.FieldDescriptorProto_Type` (TYPE_DOUBLE .. TYPE_SINT64). -/
inductive ProtoType where
  | doubleT | floatT | int64T | uint64T | int32T | fixed64T | fixed32T | boolT
  | stringT | groupT | messageT | bytesT | uint32T | enumT
  | sfixed32T | sfixed64T | sint32T | sint64T
deriving DecidableEq, Repr, Inhabited

/-- Mirrors `descriptor.FieldDescriptorProto_Label`. -/
inductive ProtoLabel where
  | optionalL | requiredL | repeatedL
deriving DecidableEq, Repr, Inhabited

/-- Mirrors `descriptor.FieldDescriptorProto` (the parts `ast.go` reads). -/
structure FieldDescriptorProto where
  name : String
  number : Nat
  label : ProtoLabel
  type : ProtoType
  typeName : String
  oneofIndex : Option Nat
deriving DecidableEq, Repr, Inhabited

structure EnumValueDescriptorProto where
  name : String
  number : Int
deriving DecidableEq, Repr, Inhabited

structure EnumDescriptorProto where
  name : String
  value : List EnumValueDescriptorProto
deriving DecidableEq, Repr, Inhabited

structure OneofDescriptorProto where
  name : String
deriving DecidableEq, Repr, Inhabited

structure MethodDescriptorProto where
  name : String
  inputType : String
  outputType : String
deriving DecidableEq, Repr, Inhabited

structure ServiceDescriptorProto where
  name : String
  method : List MethodDescriptorProto
deriving DecidableEq, Repr, Inhabited

/-- Mirrors `descriptor.DescriptorProto`; `mapEntry` is
`GetOptions().GetMapEntry()`. -/
inductive DescriptorProto where
  | mk (name : String) (field : List FieldDescriptorProto)
       (nestedType : List DescriptorProto)
       (enumType : List EnumDescriptorProto)
       (oneofDecl : List OneofDescriptorProto)
       (mapEntry : Bool)
deriving Repr, Inhabited

def DescriptorProto.name : DescriptorProto → String
  | .mk n _ _ _ _ _ => n

def DescriptorProto.field : DescriptorProto → List FieldDescriptorProto
  | .mk _ f _ _ _ _ => f

def DescriptorProto.nestedType : DescriptorProto → List DescriptorProto
  | .mk _ _ nt _ _ _ => nt

def DescriptorProto.enumType : DescriptorProto → List EnumDescriptorProto
  | .mk _ _ _ et _ _ => et

def DescriptorProto.oneofDecl : DescriptorProto → List OneofDescriptorProto
  | .mk _ _ _ _ od _ => od

def DescriptorProto.mapEntry : DescriptorProto → Bool
  | .mk _ _ _ _ _ me => me

/-- One `SourceCodeInfo_Location`: a structural path plus its comment payload. -/
structure Location where
  path : List Nat
  leadingComments : String := ""
deriving DecidableEq, Repr, Inhabited

/-- Mirrors `descriptor.FileDescriptorProto` (the parts `ast.go` reads);
`location` is `GetSourceCodeInfo().GetLocation()`. -/
structure FileDescriptorProto where
  name : String
  package : String
  messageType : List DescriptorProto
  enumType : List EnumDescriptorProto
  service : List ServiceDescriptorProto
  location : List Location
deriving Repr, Inhabited

/-- Mirrors `plugin_go.CodeGeneratorRequest` (the parts `ast.go` reads). -/
structure CodeGeneratorRequest where
  fileToGenerate : List String
  protoFile : List FileDescriptorProto
deriving Repr, Inhabited

/-- Which concrete entity struct a registry slot holds (`file`, `msg`,
`enum`, `enumVal`, `service`, `method`, `field`, `oneof` in the Go code). -/
inductive EKind where
  | file | msg | enum | enumVal | service | method | field | oneof
deriving DecidableEq, Repr, Inhabited

/-- Element type of a repeated or map field: the Go `scalarE`, `enumE`,
`embedE` structs.  Entity references are table indices. -/
inductive Elem where
  | scalarE (ptype : ProtoType)
  | enumE (ptype : ProtoType) (enum : Nat)
  | embedE (ptype : ProtoType) (msg : Nat)
deriving DecidableEq, Repr, Inhabited

/-- The Go `FieldType` implementations `scalarT`, `enumT`, `embedT`, `repT`,
`mapT`.  `ptype` is what `ProtoType()` returns (the field descriptor's type
tag); entity references are table indices. -/
inductive FieldType where
  | scalar (ptype : ProtoType)
  | enum (ptype : ProtoType) (enum : Nat)
  | embed (ptype : ProtoType) (msg : Nat)
  | rep (ptype : ProtoType) (el : Elem)
  | map (ptype : ProtoType) (key : Elem) (el : Elem)
deriving DecidableEq, Repr, Inhabited

/-- A fatal construction failure: the `Debugger.Fail/Failf` channel, plus the
Go runtime panics reachable from `ast.go` (failed interface cast, slice index
out of range, method call on a nil `FieldType`). -/
inductive Err where
  | groupErr
  | unseenErr (fqn : String)
  | castErr (fqn : String)
  | idxErr
  | nilTypeErr
deriving DecidableEq, Repr, Inhabited

/-- One hydrated entity.  This flattens the Go structs `file`, `msg`, `enum`,
`enumVal`, `service`, `method`, `field`, `oneof` into one record; each kind
uses only its own fields and leaves the rest at their defaults.  Child and
cross references are table indices (Go pointers). -/
structure Entity where
  kind : EKind
  name : String
  /-- The dot-qualified fully-qualified name (meaningless for files, whose
  registry key is their path `name`). -/
  fqn : String
  parent : Option Nat := none
  isMapEntry : Bool := false
  buildTarget : Bool := false
  pkgId : Nat := 0
  fileDesc : Option FileDescriptorProto := none
  fieldDesc : Option FieldDescriptorProto := none
  enums : List Nat := []
  msgs : List Nat := []
  mapEntries : List Nat := []
  preservedMsgs : List Nat := []
  oneofs : List Nat := []
  fields : List Nat := []
  srvs : List Nat := []
  methods : List Nat := []
  vals : List Nat := []
  methodIn : Option Nat := none
  methodOut : Option Nat := none
  ftype : Option FieldType := none
  info : Option Location := none
  pkgInfo : Option Location := none
deriving Repr, Inhabited

/-- The Go `pkg` struct: one protocol package and the files added to it. -/
structure Pkg where
  name : String
  files : List Nat := []
deriving Repr, Inhabited

/-- The Go `graph` struct.  `ents` is the heap: entities are referenced by
index into it.  `entities`, `targets` and `packages` are the three maps,
modelled as association lists where a prepended pair shadows older ones
(Go map overwrite). -/
structure Graph where
  ents : List Entity := []
  entities : List (String × Nat) := []
  targets : List (String × Option Nat) := []
  packages : List (String × Nat) := []
  pkgs : List Pkg := []
deriving Repr, Inhabited

/-- Dereference an entity pointer (indices handed out by hydration are always
in range). -/
def Graph.entOf (g : Graph) (i : Nat) : Entity :=
  (g.ents.get? i).getD default

/-- Mutate the entity a pointer refers to. -/
def Graph.updEnt (g : Graph) (i : Nat) (f : Entity → Entity) : Graph :=
  { g with ents := g.ents.set i (f (g.entOf i)) }

/-- Allocate a fresh entity, returning its pointer. -/
def Graph.createEnt (g : Graph) (e : Entity) : Graph × Nat :=
  ({ g with ents := g.ents ++ [e] }, g.ents.length)

/-- `graph.resolveFQN`: files key the registry by their path, every other
entity by its fully-qualified name. -/
def Graph.resolveFQN (g : Graph) (i : Nat) : String :=
  if (g.entOf i).kind = .file then (g.entOf i).name else (g.entOf i).fqn

/-- `graph.add`: register an entity under its resolved FQN. -/
def Graph.add (g : Graph) (i : Nat) : Graph :=
  { g with entities := (g.resolveFQN i, i) :: g.entities }

/-- `graph.Lookup`: `(e, ok)` becomes `Option Nat`. -/
def Graph.Lookup (g : Graph) (name : String) : Option Nat :=
  g.entities.lookup name

/-- `graph.Targets`. -/
def Graph.Targets (g : Graph) : List (String × Option Nat) := g.targets

/-- `graph.Packages`. -/
def Graph.Packages (g : Graph) : List (String × Nat) := g.packages

/-- `graph.mustSeen`: resolve an FQN that is required to be hydrated already;
a miss is the fatal `Failf("expected entity %q has not been hydrated", fqn)`. -/
def mustSeen (g : Graph) (fqn : String) : Except Err Nat :=
  match g.entities.lookup fqn with
  | some e => .ok e
  | none => .error (.unseenErr fqn)

/-- Modelled from the spec: `FieldType.toElem` (entity code outside `ast.go`):
strips the singular/repeated shape off a field type, keeping the element-level
kind (scalar, enum reference, or embedded-message reference). -/
def FieldType.toElem : FieldType → Elem
  | .scalar t => .scalarE t
  | .enum t e => .enumE t e
  | .embed t m => .embedE t m
  | .rep _ el => el
  | .map _ _ el => el

/-- The field descriptor backing a field entity (`fld.Descriptor()`). -/
def Graph.fieldDescOf (g : Graph) (fid : Nat) : FieldDescriptorProto :=
  ((g.entOf fid).fieldDesc).getD default

/-- `graph.hydrateEnumFieldType`: an enum-typed singular field resolves its
type name in the registry; the Go `.(Enum)` cast panics on a non-enum entity. -/
def hydrateEnumFieldType (g : Graph) (fid : Nat) : Except Err FieldType := do
  let fd := g.fieldDescOf fid
  let e ← mustSeen g fd.typeName
  if (g.entOf e).kind = .enum then
    .ok (.enum fd.type e)
  else
    .error (.castErr fd.typeName)

/-- `graph.hydrateEmbedFieldType`: a message-typed singular field resolves its
type name in the registry; the Go `.(Message)` cast panics on a non-message. -/
def hydrateEmbedFieldType (g : Graph) (fid : Nat) : Except Err FieldType := do
  let fd := g.fieldDescOf fid
  let m ← mustSeen g fd.typeName
  if (g.entOf m).kind = .msg then
    .ok (.embed fd.type m)
  else
    .error (.castErr fd.typeName)

/-- `graph.hydrateMapFieldType`: read the map-entry message's first and second
fields as the key and value element types.  The Go indexing
`m.Fields()[0]`/`[1]` panics when the entry has fewer than two fields, and
calling `toElem` panics when a field's type has not been hydrated yet. -/
def hydrateMapFieldType (g : Graph) (fid : Nat) (m : Nat) : Except Err FieldType := do
  let fd := g.fieldDescOf fid
  match (g.entOf m).fields.get? 0, (g.entOf m).fields.get? 1 with
  | some k, some v =>
    match (g.entOf k).ftype, (g.entOf v).ftype with
    | some kt, some vt => .ok (.map fd.type kt.toElem vt.toElem)
    | _, _ => .error .nilTypeErr
  | _, _ => .error .idxErr

/-- `graph.hydrateRepeatedFieldType`: build `repT` whose element mirrors the
field's underlying type; a repeated message whose target is a map entry is
re-routed to `hydrateMapFieldType`. -/
def hydrateRepeatedFieldType (g : Graph) (fid : Nat) : Except Err FieldType := do
  let fd := g.fieldDescOf fid
  match fd.type with
  | .enumT => do
      let e ← mustSeen g fd.typeName
      if (g.entOf e).kind = .enum then
        .ok (.rep fd.type (.enumE fd.type e))
      else
        .error (.castErr fd.typeName)
  | .messageT => do
      let m ← mustSeen g fd.typeName
      if (g.entOf m).kind = .msg then
        if (g.entOf m).isMapEntry then
          hydrateMapFieldType g fid m
        else
          .ok (.rep fd.type (.embedE fd.type m))
      else
        .error (.castErr fd.typeName)
  | _ => .ok (.rep fd.type (.scalarE fd.type))

/-- `graph.hydrateFieldType`: the classifier switch, in source order — group
fails fatally, then repeated, then enum, then message, else scalar. -/
def hydrateFieldType (g : Graph) (fid : Nat) : Except Err FieldType :=
  let fd := g.fieldDescOf fid
  if fd.type = .groupT then
    .error .groupErr
  else if fd.label = .repeatedL then
    hydrateRepeatedFieldType g fid
  else if fd.type = .enumT then
    hydrateEnumFieldType g fid
  else if fd.type = .messageT then
    hydrateEmbedFieldType g fid
  else
    .ok (.scalar fd.type)

/-! ### Structural hydration -/

/-- Modelled from the spec: the dot-qualified FQN base a file contributes to
its children (`FullyQualifiedName` lives in entity code outside `ast.go`); the
FQN has the form `.{package}.{entity}`, and a file with no declared package
contributes no package segment. -/
def filePfx (f : FileDescriptorProto) : String :=
  if f.package = "" then "" else "." ++ f.package

/-- The `enumVal` struct as created by `graph.hydrateEnumValue`. -/
def enumValEntity (g : Graph) (eid : Nat) (vd : EnumValueDescriptorProto) : Entity :=
  { kind := .enumVal, name := vd.name,
    fqn := (g.entOf eid).fqn ++ "." ++ vd.name, parent := some eid }

/-- `graph.hydrateEnumValue`. -/
def hydrateEnumValue (g : Graph) (eid : Nat) (vd : EnumValueDescriptorProto) :
    Graph × Nat :=
  let (g, vid) := g.createEnt (enumValEntity g eid vd)
  (g.add vid, vid)

/-- The `enum` struct as created by `graph.hydrateEnum`. -/
def enumEntity (pid : Nat) (pfx : String) (ed : EnumDescriptorProto) : Entity :=
  { kind := .enum, name := ed.name, fqn := pfx ++ "." ++ ed.name,
    parent := some pid }

/-- `graph.hydrateEnum`. -/
def hydrateEnum (g : Graph) (pid : Nat) (pfx : String) (ed : EnumDescriptorProto) :
    Graph × Nat :=
  let (g, eid) := g.createEnt (enumEntity pid pfx ed)
  let g := g.add eid
  let g := ed.value.foldl (fun g vd =>
    let (g, vid) := hydrateEnumValue g eid vd
    g.updEnt eid fun e => { e with vals := e.vals ++ [vid] }) g
  (g, eid)

/-- `graph.hydrateOneOf`. -/
def oneofEntity (mid : Nat) (pfx : String) (od : OneofDescriptorProto) : Entity :=
  { kind := .oneof, name := od.name, fqn := pfx ++ "." ++ od.name,
    parent := some mid }

def hydrateOneOf (g : Graph) (mid : Nat) (pfx : String) (od : OneofDescriptorProto) :
    Graph × Nat :=
  let (g, oid) := g.createEnt (oneofEntity mid pfx od)
  (g.add oid, oid)

/-- `graph.hydrateField`. -/
def fieldEntity (mid : Nat) (pfx : String) (fd : FieldDescriptorProto) : Entity :=
  { kind := .field, name := fd.name, fqn := pfx ++ "." ++ fd.name,
    parent := some mid, fieldDesc := some fd }

def hydrateField (g : Graph) (mid : Nat) (pfx : String) (fd : FieldDescriptorProto) :
    Graph × Nat :=
  let (g, fid) := g.createEnt (fieldEntity mid pfx fd)
  (g.add fid, fid)

/-- The `method` struct as created by `graph.hydrateMethod`. -/
def methodEntity (g : Graph) (sid : Nat) (md : MethodDescriptorProto) : Entity :=
  { kind := .method, name := md.name,
    fqn := (g.entOf sid).fqn ++ "." ++ md.name, parent := some sid }

/-- `graph.hydrateMethod`: the method is registered first, then its input and
output messages are resolved in the registry (the `.(Message)` casts panic on
a non-message entity). -/
def hydrateMethod (g : Graph) (sid : Nat) (md : MethodDescriptorProto) :
    Except Err (Graph × Nat) :=
  let gc := g.createEnt (methodEntity g sid md)
  let mid := gc.2
  let g1 := gc.1.add mid
  match mustSeen g1 md.inputType with
  | .error e => .error e
  | .ok inId =>
    match (g1.entOf inId).kind with
    | .msg =>
      let g2 := g1.updEnt mid fun e => { e with methodIn := some inId }
      match mustSeen g2 md.outputType with
      | .error e => .error e
      | .ok outId =>
        match (g2.entOf outId).kind with
        | .msg => .ok (g2.updEnt mid fun e => { e with methodOut := some outId }, mid)
        | _ => .error (.castErr md.outputType)
    | _ => .error (.castErr md.inputType)

def serviceEntity (fid : Nat) (pfx : String) (sd : ServiceDescriptorProto) : Entity :=
  { kind := .service, name := sd.name, fqn := pfx ++ "." ++ sd.name,
    parent := some fid }

/-- `graph.hydrateService`. -/
def hydrateService (g : Graph) (fid : Nat) (pfx : String)
    (sd : ServiceDescriptorProto) : Except Err (Graph × Nat) := do
  let (g, sid) := g.createEnt (serviceEntity fid pfx sd)
  let g := g.add sid
  let g ← sd.method.foldlM (fun g md => do
    let (g, mid) ← hydrateMethod g sid md
    pure (g.updEnt sid fun e => { e with methods := e.methods ++ [mid] })) g
  pure (g, sid)

/-- The field loop of `graph.hydrateMessage`: hydrate each field, attach it to
the message, and when the descriptor declares a one-of index attach it to
`m.oneofs[*idx]` (whose Go indexing panics when the index is out of range). -/
def hydrateFields (g : Graph) (mid : Nat) (pfx : String) :
    List FieldDescriptorProto → Except Err Graph
  | [] => pure g
  | fd :: rest => do
    let (g, fid) := hydrateField g mid pfx fd
    let g := g.updEnt mid fun e => { e with fields := e.fields ++ [fid] }
    match fd.oneofIndex with
    | none => hydrateFields g mid pfx rest
    | some idx =>
      match (g.entOf mid).oneofs.get? idx with
      | none => .error .idxErr
      | some oid =>
        hydrateFields (g.updEnt oid fun e => { e with fields := e.fields ++ [fid] })
          mid pfx rest

/-- The `msg` struct as created by `graph.hydrateMessage`. -/
def msgEntity (pid : Nat) (pfx name : String) (isME : Bool) : Entity :=
  { kind := .msg, name := name, fqn := pfx ++ "." ++ name,
    parent := some pid, isMapEntry := isME }

mutual

/-- `graph.hydrateMessage`: the message is created and registered, then its
nested enums, nested messages (split between map entries and ordinary nested
messages, with every one kept in `preservedMsgs` in descriptor order), one-of
declarations, and fields are hydrated in that order. -/
def hydrateMessage (g : Graph) (pid : Nat) (pfx : String) (md : DescriptorProto) :
    Except Err (Graph × Nat) :=
  match md with
  | .mk name fieldDescs nested enumDescs oneofDescs isME => do
    let fqn := pfx ++ "." ++ name
    let (g, mid) := g.createEnt (msgEntity pid pfx name isME)
    let g := g.add mid
    let g := enumDescs.foldl (fun g ed =>
      let (g, eid) := hydrateEnum g mid fqn ed
      g.updEnt mid fun e => { e with enums := e.enums ++ [eid] }) g
    let g ← hydrateNested g mid fqn nested
    let g := oneofDescs.foldl (fun g od =>
      let (g, oid) := hydrateOneOf g mid fqn od
      g.updEnt mid fun e => { e with oneofs := e.oneofs ++ [oid] }) g
    let g ← hydrateFields g mid fqn fieldDescs
    pure (g, mid)

/-- The nested-message loop of `graph.hydrateMessage`: each hydrated nested
message goes to `mapEntries` when `IsMapEntry()` and to the ordinary `msgs`
list otherwise, and always to `preservedMsgs`. -/
def hydrateNested (g : Graph) (mid : Nat) (pfx : String) :
    List DescriptorProto → Except Err Graph
  | [] => pure g
  | nmd :: rest => do
    let (g, nid) ← hydrateMessage g mid pfx nmd
    let g :=
      if (g.entOf nid).isMapEntry then
        g.updEnt mid fun e => { e with mapEntries := e.mapEntries ++ [nid] }
      else
        g.updEnt mid fun e => { e with msgs := e.msgs ++ [nid] }
    let g := g.updEnt mid fun e => { e with preservedMsgs := e.preservedMsgs ++ [nid] }
    hydrateNested g mid pfx rest

end

/-! ### The type-classification pass (`hydrateFile` lines 106–116) -/

/-- `fld.addType(g.hydrateFieldType(fld))` over a list of field entities. -/
def typeFields (g : Graph) : List Nat → Except Err Graph
  | [] => pure g
  | fid :: rest => do
    let t ← hydrateFieldType g fid
    typeFields (g.updEnt fid fun e => { e with ftype := some t }) rest

/-- The inner loop over `m.MapEntries()`: classify every field of every map
entry. -/
def typeMapEntryFields (g : Graph) : List Nat → Except Err Graph
  | [] => pure g
  | me :: rest => do
    let g ← typeFields g (g.entOf me).fields
    typeMapEntryFields g rest

/-- One iteration of the classification pass: a message's map-entry fields
are classified before its own fields. -/
def typePassMsg (g : Graph) (m : Nat) : Except Err Graph := do
  let g ← typeMapEntryFields g (g.entOf m).mapEntries
  typeFields g (g.entOf m).fields

/-- The classification pass over `fl.AllMessages()`. -/
def typePass (g : Graph) : List Nat → Except Err Graph
  | [] => pure g
  | m :: rest => do
    let g ← typePassMsg g m
    typePass g rest

/-- Modelled from the spec: `File.AllMessages` (entity code outside `ast.go`)
— every top-level and transitively nested ordinary message of the file in
depth-first descriptor order.  Recursion is fuelled by the table size, which
bounds the nesting depth of any graph hydration builds. -/
def allMessagesAux (g : Graph) : Nat → List Nat → List Nat
  | 0, _ => []
  | fuel + 1, ms => ms.bind fun m => m :: allMessagesAux g fuel (g.entOf m).msgs

def allMessages (g : Graph) (fid : Nat) : List Nat :=
  allMessagesAux g g.ents.length (g.entOf fid).msgs

/-! ### Source-code-info binding -/

/-- Modelled from the spec: the `FileDescriptorProto` field numbers used by
the location binder — `syntax` is field 12 and `package` is field 2. -/
def synPath : Nat := 12

def packagePath : Nat := 2

/-- Modelled from the spec: descriptor field numbers for the child walk —
`FileDescriptorProto.message_type/enum_type/service` and
`DescriptorProto.field/nested_type/enum_type/oneof_decl`,
`EnumDescriptorProto.value`, `ServiceDescriptorProto.method`. -/
def messageTypePath : Nat := 4

def enumTypePath : Nat := 5

def servicePath : Nat := 6

def messageFieldPath : Nat := 2

def messageMessagePath : Nat := 3

def messageEnumPath : Nat := 4

def messageOneOfPath : Nat := 8

def enumValuePath : Nat := 2

def serviceMethodPath : Nat := 2

/-- Modelled from the spec: `childAtPath` (entity code outside `ast.go`) —
resolve a source-location path of (field-number, index) pairs by walking the
file's child structure one pair at a time; an empty path addresses the current
entity, and an odd-length remainder or an unknown field number or an index out
of range addresses nothing. -/
def childAtPath (g : Graph) (eid : Nat) : List Nat → Option Nat
  | [] => some eid
  | [_] => none
  | p :: i :: rest =>
    let e := g.entOf eid
    let child? : Option Nat :=
      match e.kind with
      | .file =>
        if p = messageTypePath then e.msgs.get? i
        else if p = enumTypePath then e.enums.get? i
        else if p = servicePath then e.srvs.get? i
        else none
      | .msg =>
        if p = messageFieldPath then e.fields.get? i
        else if p = messageMessagePath then e.preservedMsgs.get? i
        else if p = messageEnumPath then e.enums.get? i
        else if p = messageOneOfPath then e.oneofs.get? i
        else none
      | .enum => if p = enumValuePath then e.vals.get? i else none
      | .service => if p = serviceMethodPath then e.methods.get? i else none
      | _ => none
    match child? with
    | some c => childAtPath g c rest
    | none => none

/-- `if e := f.childAtPath(path); e != nil { e.addSourceCodeInfo(info) }`. -/
def attachChild (g : Graph) (fid : Nat) (path : List Nat) (loc : Location) : Graph :=
  match childAtPath g fid path with
  | some e => g.updEnt e fun x => { x with info := some loc }
  | none => g

/-- The body of the location loop in `graph.hydrateSourceCodeInfo`: a
length-one path equal to the syntax (resp. package) field number attaches the
info as file-level syntax (resp. package) commentary and then still reaches
the `childAtPath` attachment; any other length-one path is skipped by the
`continue`; every other path goes straight to the `childAtPath` attachment. -/
def hydrateLoc (g : Graph) (fid : Nat) (loc : Location) : Graph :=
  match loc.path with
  | [p] =>
    if p = synPath then
      attachChild (g.updEnt fid fun e => { e with info := some loc }) fid loc.path loc
    else if p = packagePath then
      attachChild (g.updEnt fid fun e => { e with pkgInfo := some loc }) fid loc.path loc
    else g
  | path => attachChild g fid path loc

/-- `graph.hydrateSourceCodeInfo`. -/
def hydrateSourceCodeInfo (g : Graph) (fid : Nat) (fd : FileDescriptorProto) : Graph :=
  fd.location.foldl (fun g loc => hydrateLoc g fid loc) g

/-! ### File and package hydration -/

/-- The top-level message loop of `graph.hydrateFile` (`fl.addMessage` for
every top-level message — no map-entry split at file level). -/
def hydrateFileMsgs (g : Graph) (fid : Nat) (pfx : String) :
    List DescriptorProto → Except Err Graph
  | [] => pure g
  | md :: rest => do
    let (g, mid) ← hydrateMessage g fid pfx md
    hydrateFileMsgs (g.updEnt fid fun e => { e with msgs := e.msgs ++ [mid] })
      fid pfx rest

/-- The body of `graph.hydrateFile` after target registration: hydrate enums,
messages and services, run the type-classification pass over all messages,
and bind source code info. -/
def hydrateFileRest (g : Graph) (fid : Nat) (f : FileDescriptorProto) :
    Except Err (Graph × Nat) := do
  let pfx := filePfx f
  let g := f.enumType.foldl (fun g ed =>
    let (g, eid) := hydrateEnum g fid pfx ed
    g.updEnt fid fun e => { e with enums := e.enums ++ [eid] }) g
  let g ← hydrateFileMsgs g fid pfx f.messageType
  let g ← f.service.foldlM (fun g sd => do
    let (g, sid) ← hydrateService g fid pfx sd
    pure (g.updEnt fid fun e => { e with srvs := e.srvs ++ [sid] })) g
  let g ← typePass g (allMessages g fid)
  let g := hydrateSourceCodeInfo g fid f
  pure (g, fid)

/-- The build-target step of `graph.hydrateFile`:
`if _, fl.buildTarget = g.targets[f.GetName()]; fl.buildTarget { ... }`. -/
def registerTarget (g : Graph) (fid : Nat) (name : String) : Graph :=
  match g.targets.lookup name with
  | some _ =>
    { g.updEnt fid (fun e => { e with buildTarget := true }) with
      targets := (name, some fid) :: g.targets }
  | none => g

/-- The `file` struct as created by `graph.hydrateFile` (`&file{pkg: pkg,
desc: f}`). -/
def fileEntity (f : FileDescriptorProto) (pid : Nat) : Entity :=
  { kind := .file, name := f.name, fqn := f.name, pkgId := pid,
    fileDesc := some f }

/-- `graph.hydrateFile`: create and register the file, mark and record it as a
build target when its path is a requested target, then hydrate its contents
(`hydrateFileRest`). -/
def hydrateFile (g : Graph) (pid : Nat) (f : FileDescriptorProto) :
    Except Err (Graph × Nat) :=
  let gc := g.createEnt (fileEntity f pid)
  let fid := gc.2
  let g1 := gc.1.add fid
  hydrateFileRest (registerTarget g1 fid f.name) fid f

/-- `graph.hydratePackage`: find-or-create the package by declared name. -/
def hydratePackage (g : Graph) (f : FileDescriptorProto) : Graph × Nat :=
  match g.packages.lookup f.package with
  | some pid => (g, pid)
  | none =>
    let pid := g.pkgs.length
    ({ g with pkgs := g.pkgs ++ [{ name := f.package }],
              packages := (f.package, pid) :: g.packages }, pid)

/-- `pkg.addFile`. -/
def pkgAddFile (g : Graph) (pid : Nat) (fid : Nat) : Graph :=
  let p := (g.pkgs.get? pid).getD default
  { g with pkgs := g.pkgs.set pid { p with files := p.files ++ [fid] } }

/-- `ProcessDescriptors`: seed the target map with the requested file names,
then hydrate each file descriptor into its (find-or-create) package. -/
def ProcessDescriptors (req : CodeGeneratorRequest) : Except Err Graph := do
  let g : Graph := { targets := req.fileToGenerate.map (fun f => (f, none)) }
  req.protoFile.foldlM (fun g f => do
    let (g, pid) := hydratePackage g f
    let (g, fid) ← hydrateFile g pid f
    pure (pkgAddFile g pid fid)) g

/-! ### Basic heap lemmas -/

theorem entOf_updEnt_ne (g : Graph) (i j : Nat) (f : Entity → Entity) (h : i ≠ j) :
    (g.updEnt i f).entOf j = g.entOf j := by
  simp only [Graph.updEnt, Graph.entOf, List.get?_eq_getElem?]
  rw [List.getElem?_set_ne h]

theorem entOf_updEnt_self (g : Graph) (i : Nat) (f : Entity → Entity)
    (h : i < g.ents.length) : (g.updEnt i f).entOf i = f (g.entOf i) := by
  simp only [Graph.updEnt, Graph.entOf, List.get?_eq_getElem?]
  rw [List.getElem?_set_self']
  rw [List.getElem?_eq_getElem h]
  simp

theorem length_updEnt (g : Graph) (i : Nat) (f : Entity → Entity) :
    (g.updEnt i f).ents.length = g.ents.length := by
  simp [Graph.updEnt]

theorem entOf_createEnt_lt (g : Graph) (e : Entity) (j : Nat) (h : j < g.ents.length) :
    ((g.createEnt e).1).entOf j = g.entOf j := by
  simp only [Graph.createEnt, Graph.entOf]
  rw [List.get?_append h]

theorem entOf_createEnt_self (g : Graph) (e : Entity) :
    ((g.createEnt e).1).entOf g.ents.length = e := by
  simp only [Graph.createEnt, Graph.entOf]
  rw [List.get?_concat_length]
  rfl

theorem length_createEnt (g : Graph) (e : Entity) :
    ((g.createEnt e).1).ents.length = g.ents.length + 1 := by
  simp [Graph.createEnt]

theorem entOf_add (g : Graph) (i j : Nat) : (g.add i).entOf j = g.entOf j := rfl

theorem length_add (g : Graph) (i : Nat) : (g.add i).ents.length = g.ents.length := rfl

theorem entOf_updEnt_self' (g : Graph) (i : Nat) (f : Entity → Entity) :
    (g.updEnt i f).entOf i = if i < g.ents.length then f (g.entOf i) else g.entOf i := by
  by_cases h : i < g.ents.length
  · rw [entOf_updEnt_self g i f h, if_pos h]
  · rw [if_neg h]
    simp only [Graph.updEnt, Graph.entOf, List.get?_eq_getElem?]
    rw [List.getElem?_set_self']
    have : g.ents[i]? = none := List.getElem?_eq_none (Nat.le_of_not_lt h)
    simp [this]

/-! ### The soundness relation preserved by every hydration step -/

/-- The entity fields that, once an entity is created, no later hydration step
rewrites (the graph only appends to child lists and fills `ftype`,
`methodIn`/`methodOut` and source info; `hydrateFile` flips `buildTarget` of
its own fresh file only). -/
def EntStable (a b : Entity) : Prop :=
  b.kind = a.kind ∧ b.name = a.name ∧ b.fqn = a.fqn ∧ b.parent = a.parent ∧
  b.isMapEntry = a.isMapEntry ∧ b.buildTarget = a.buildTarget ∧
  b.pkgId = a.pkgId ∧ b.fileDesc = a.fileDesc ∧ b.fieldDesc = a.fieldDesc

theorem entStable_refl (a : Entity) : EntStable a a := by
  simp [EntStable]

theorem entStable_trans {a b c : Entity} (h1 : EntStable a b) (h2 : EntStable b c) :
    EntStable a c := by
  obtain ⟨k1, n1, q1, p1, m1, t1, g1, f1, d1⟩ := h1
  obtain ⟨k2, n2, q2, p2, m2, t2, g2, f2, d2⟩ := h2
  exact ⟨k2.trans k1, n2.trans n1, q2.trans q1, p2.trans p1, m2.trans m1,
    t2.trans t1, g2.trans g1, f2.trans f1, d2.trans d1⟩

/-- The registry invariant: every registered pair maps the resolved FQN of a
live entity to that entity, and every live entity is registered under its
resolved FQN. -/
def Inv (g : Graph) : Prop :=
  (∀ p ∈ g.entities, p.2 < g.ents.length ∧ g.resolveFQN p.2 = p.1) ∧
  (∀ i, i < g.ents.length → (g.resolveFQN i, i) ∈ g.entities)

/-- What one hydration step of file-interior structure guarantees: the table
only grows, pre-existing entities keep their stable fields, the target /
package maps are untouched, no new entity is a file, and the registry
invariant is preserved. -/
def Sound (g g' : Graph) : Prop :=
  g.ents.length ≤ g'.ents.length ∧
  (∀ i, i < g.ents.length → EntStable (g.entOf i) (g'.entOf i)) ∧
  g'.targets = g.targets ∧ g'.packages = g.packages ∧ g'.pkgs = g.pkgs ∧
  (∀ i, g.ents.length ≤ i → i < g'.ents.length → (g'.entOf i).kind ≠ .file) ∧
  (Inv g → Inv g')

theorem sound_refl (g : Graph) : Sound g g := by
  refine ⟨le_refl _, fun i _ => entStable_refl _, rfl, rfl, rfl, fun i h1 h2 => ?_, id⟩
  exact absurd h2 (Nat.not_lt.mpr h1)

theorem sound_trans {g1 g2 g3 : Graph} (h1 : Sound g1 g2) (h2 : Sound g2 g3) :
    Sound g1 g3 := by
  obtain ⟨l1, s1, t1, p1, k1, f1, i1⟩ := h1
  obtain ⟨l2, s2, t2, p2, k2, f2, i2⟩ := h2
  refine ⟨l1.trans l2, fun i hi => entStable_trans (s1 i hi) (s2 i (hi.trans_le l1)),
    t2.trans t1, p2.trans p1, k2.trans k1, ?_, fun h => i2 (i1 h)⟩
  intro i hge hlt
  by_cases hmid : i < g2.ents.length
  · have := f1 i hge hmid
    have hs := s2 i hmid
    rw [hs.1]
    exact this
  · exact f2 i (Nat.le_of_not_lt hmid) hlt

theorem resolveFQN_eq_of_entStable {g g' : Graph} (i : Nat)
    (hk : (g'.entOf i).kind = (g.entOf i).kind) (hn : (g'.entOf i).name = (g.entOf i).name)
    (hq : (g'.entOf i).fqn = (g.entOf i).fqn) :
    g'.resolveFQN i = g.resolveFQN i := by
  simp only [Graph.resolveFQN, hk, hn, hq]

/-- `updEnt` with a mutator that keeps the stable fields is `Sound`. -/
theorem sound_updEnt (g : Graph) (i : Nat) (f : Entity → Entity)
    (hf : ∀ e, EntStable e (f e)) : Sound g (g.updEnt i f) := by
  have hlen : (g.updEnt i f).ents.length = g.ents.length := length_updEnt g i f
  have hstab : ∀ j, EntStable (g.entOf j) ((g.updEnt i f).entOf j) := by
    intro j
    by_cases hj : i = j
    · subst hj
      rw [entOf_updEnt_self']
      by_cases h : i < g.ents.length
      · rw [if_pos h]; exact hf _
      · rw [if_neg h]; exact entStable_refl _
    · rw [entOf_updEnt_ne g i j f hj]; exact entStable_refl _
  have hres : ∀ j, (g.updEnt i f).resolveFQN j = g.resolveFQN j := by
    intro j
    exact resolveFQN_eq_of_entStable j (hstab j).1 (hstab j).2.1 (hstab j).2.2.1
  refine ⟨le_of_eq hlen.symm, fun j _ => hstab j, rfl, rfl, rfl, ?_, ?_⟩
  · intro j h1 h2
    rw [hlen] at h2
    exact absurd h2 (Nat.not_lt.mpr h1)
  · rintro ⟨h1, h2⟩
    constructor
    · intro p hp
      have := h1 p hp
      exact ⟨hlen ▸ this.1, (hres p.2).trans this.2⟩
    · intro j hj
      rw [hlen] at hj
      rw [hres j]
      exact h2 j hj

/-- The registry invariant survives allocating an entity and immediately
registering it (`g.add` right after creation, as every hydrator does). -/
theorem inv_createAdd (g : Graph) (e : Entity) (h : Inv g) :
    Inv (((g.createEnt e).1).add (g.createEnt e).2) := by
  obtain ⟨h1, h2⟩ := h
  have hres : ∀ j, j < g.ents.length →
      (((g.createEnt e).1).add (g.createEnt e).2).resolveFQN j = g.resolveFQN j := by
    intro j hj
    have : (((g.createEnt e).1).add (g.createEnt e).2).entOf j = g.entOf j := by
      rw [entOf_add]; exact entOf_createEnt_lt g e j hj
    simp only [Graph.resolveFQN, this]
  constructor
  · rintro p hp
    simp only [Graph.add, Graph.createEnt, List.mem_cons] at hp
    rcases hp with hp | hp
    · subst hp
      refine ⟨?_, rfl⟩
      simp [Graph.add, Graph.createEnt, length_add]
    · have := h1 p hp
      refine ⟨?_, ?_⟩
      · rw [length_add, length_createEnt]
        exact this.1.trans (Nat.lt_succ_self _)
      · rw [hres p.2 this.1]
        exact this.2
  · intro i hi
    rw [length_add, length_createEnt] at hi
    rcases Nat.lt_succ_iff_lt_or_eq.mp hi with hi' | hi'
    · have := h2 i hi'
      rw [hres i hi']
      simp only [Graph.add, List.mem_cons]
      exact Or.inr this
    · subst hi'
      simp only [Graph.add, Graph.createEnt, List.mem_cons]
      exact Or.inl rfl

/-- Allocate-and-register of a non-file entity is `Sound`. -/
theorem sound_createAdd (g : Graph) (e : Entity) (hk : e.kind ≠ .file) :
    Sound g (((g.createEnt e).1).add (g.createEnt e).2) := by
  refine ⟨?_, ?_, rfl, rfl, rfl, ?_, inv_createAdd g e⟩
  · rw [length_add, length_createEnt]; exact Nat.le_succ _
  · intro i hi
    rw [entOf_add]
    rw [entOf_createEnt_lt g e i hi]
    exact entStable_refl _
  · intro i h1 h2
    rw [length_add, length_createEnt] at h2
    have : i = g.ents.length := Nat.le_antisymm (Nat.lt_succ_iff.mp h2) h1
    subst this
    rw [entOf_add, entOf_createEnt_self]
    exact hk

/-- `Sound` survives a pure fold whose every step is `Sound`. -/
theorem sound_foldl {α : Type} {step : Graph → α → Graph}
    (h : ∀ g x, Sound g (step g x)) :
    ∀ (l : List α) (g : Graph), Sound g (l.foldl step g) := by
  intro l
  induction l with
  | nil => intro g; exact sound_refl g
  | cons x xs ih =>
    intro g
    exact sound_trans (h g x) (ih (step g x))

/-- `Sound` survives a fallible fold whose every successful step is `Sound`. -/
theorem sound_foldlM {α : Type} {step : Graph → α → Except Err Graph}
    (h : ∀ g x g', step g x = .ok g' → Sound g g') :
    ∀ (l : List α) (g g' : Graph), l.foldlM step g = .ok g' → Sound g g' := by
  intro l
  induction l with
  | nil =>
    intro g g' hr
    simp only [List.foldlM_nil, pure, Except.pure] at hr
    cases hr
    exact sound_refl g
  | cons x xs ih =>
    intro g g' hr
    simp only [List.foldlM_cons] at hr
    cases hx : step g x with
    | error e => rw [hx] at hr; simp [bind, Except.bind] at hr
    | ok g1 =>
      rw [hx] at hr
      simp only [bind, Except.bind] at hr
      exact sound_trans (h g x g1 hx) (ih g1 g' hr)

/-! ### Soundness of each hydrator -/

theorem sound_hydrateEnumValue (g : Graph) (eid : Nat) (vd : EnumValueDescriptorProto) :
    Sound g (hydrateEnumValue g eid vd).1 :=
  sound_createAdd g _ (by simp [enumValEntity])

theorem sound_hydrateEnum (g : Graph) (pid : Nat) (pfx : String)
    (ed : EnumDescriptorProto) : Sound g (hydrateEnum g pid pfx ed).1 := by
  simp only [hydrateEnum]
  refine sound_trans (sound_createAdd g _ ?_)
    (sound_foldl (fun g vd =>
      sound_trans (sound_hydrateEnumValue g _ vd)
        (sound_updEnt _ _ _ (fun e => by simp [EntStable]))) _ _)
  simp [enumEntity]

theorem sound_hydrateOneOf (g : Graph) (mid : Nat) (pfx : String)
    (od : OneofDescriptorProto) : Sound g (hydrateOneOf g mid pfx od).1 :=
  sound_createAdd g _ (by simp [oneofEntity])

theorem sound_hydrateField (g : Graph) (mid : Nat) (pfx : String)
    (fd : FieldDescriptorProto) : Sound g (hydrateField g mid pfx fd).1 :=
  sound_createAdd g _ (by simp [fieldEntity])

theorem sound_hydrateMethod (g : Graph) (sid : Nat) (md : MethodDescriptorProto)
    (g' : Graph) (mid : Nat) (h : hydrateMethod g sid md = .ok (g', mid)) :
    Sound g g' := by
  simp only [hydrateMethod] at h
  split at h
  · simp at h
  · split at h
    · split at h
      · simp at h
      · split at h
        · simp only [Except.ok.injEq, Prod.mk.injEq] at h
          obtain ⟨hg, _⟩ := h
          subst hg
          refine sound_trans (sound_createAdd g _ ?_)
            (sound_trans (sound_updEnt _ _ _ (fun e => by simp [EntStable]))
              (sound_updEnt _ _ _ (fun e => by simp [EntStable])))
          simp [methodEntity]
        · simp at h
    · simp at h

theorem sound_hydrateService (g : Graph) (fid : Nat) (pfx : String)
    (sd : ServiceDescriptorProto) (g' : Graph) (sid : Nat)
    (h : hydrateService g fid pfx sd = .ok (g', sid)) : Sound g g' := by
  simp only [hydrateService, bind, Except.bind] at h
  split at h
  · simp at h
  next g1 hfold =>
    simp only [pure, Except.pure, Except.ok.injEq, Prod.mk.injEq] at h
    obtain ⟨hg, _⟩ := h
    subst hg
    refine sound_trans (sound_createAdd g _ ?_) (sound_foldlM ?_ _ _ _ hfold)
    · simp [serviceEntity]
    · intro g2 md g3 hstep
      simp only [bind, Except.bind] at hstep
      split at hstep
      · simp at hstep
      next p hh =>
        simp only [pure, Except.pure, Except.ok.injEq] at hstep
        subst hstep
        exact sound_trans (sound_hydrateMethod g2 _ md p.1 p.2 (by rw [hh]))
          (sound_updEnt _ _ _ (fun e => by simp [EntStable]))

theorem sound_hydrateFields (g : Graph) (mid : Nat) (pfx : String)
    (fds : List FieldDescriptorProto) (g' : Graph)
    (h : hydrateFields g mid pfx fds = .ok g') : Sound g g' := by
  induction fds generalizing g with
  | nil =>
    simp only [hydrateFields, pure, Except.pure, Except.ok.injEq] at h
    subst h; exact sound_refl g
  | cons fd rest ih =>
    simp only [hydrateFields] at h
    split at h
    · exact sound_trans
        (sound_trans (sound_hydrateField g mid pfx fd)
          (sound_updEnt _ _ _ (fun e => by simp [EntStable])))
        (ih _ h)
    · split at h
      · cases h
      · exact sound_trans
          (sound_trans (sound_hydrateField g mid pfx fd)
            (sound_updEnt _ _ _ (fun e => by simp [EntStable])))
          (sound_trans (sound_updEnt _ _ _ (fun e => by simp [EntStable])) (ih _ h))

mutual

theorem sound_hydrateMessage (g : Graph) (pid : Nat) (pfx : String)
    (md : DescriptorProto) (g' : Graph) (mid : Nat)
    (h : hydrateMessage g pid pfx md = .ok (g', mid)) : Sound g g' := by
  match md with
  | .mk name fieldDescs nested enumDescs oneofDescs isME =>
    simp only [hydrateMessage, bind, Except.bind] at h
    split at h
    · simp at h
    next g3 hnest =>
      split at h
      · simp at h
      next g4 hflds =>
        simp only [pure, Except.pure, Except.ok.injEq, Prod.mk.injEq] at h
        obtain ⟨hg, _⟩ := h
        subst hg
        refine sound_trans ?_ (sound_trans (sound_hydrateNested _ _ _ nested g3 hnest)
          (sound_trans (sound_foldl (fun g od =>
              sound_trans (sound_hydrateOneOf g _ _ od)
                (sound_updEnt _ _ _ (fun e => by simp [EntStable]))) _ _)
            (sound_hydrateFields _ _ _ fieldDescs g4 hflds)))
        refine sound_trans (sound_createAdd g _ ?_)
          (sound_foldl (fun g ed =>
            sound_trans (sound_hydrateEnum g _ _ ed)
              (sound_updEnt _ _ _ (fun e => by simp [EntStable]))) _ _)
        simp [msgEntity]

theorem sound_hydrateNested (g : Graph) (mid : Nat) (pfx : String)
    (mds : List DescriptorProto) (g' : Graph)
    (h : hydrateNested g mid pfx mds = .ok g') : Sound g g' := by
  match mds with
  | [] =>
    simp only [hydrateNested, pure, Except.pure, Except.ok.injEq] at h
    subst h
    exact sound_refl g
  | nmd :: rest =>
    simp only [hydrateNested, bind, Except.bind] at h
    split at h
    · simp at h
    next p hmsg =>
      have s1 : Sound g p.1 :=
        sound_hydrateMessage g mid pfx nmd p.1 p.2 (by rw [hmsg])
      refine sound_trans s1 ?_
      by_cases hc : (p.1.entOf p.2).isMapEntry = true
      · rw [if_pos hc] at h
        exact sound_trans (sound_updEnt _ _ _ (fun e => by simp [EntStable]))
          (sound_trans (sound_updEnt _ _ _ (fun e => by simp [EntStable]))
            (sound_hydrateNested _ _ _ rest g' h))
      · rw [if_neg hc] at h
        exact sound_trans (sound_updEnt _ _ _ (fun e => by simp [EntStable]))
          (sound_trans (sound_updEnt _ _ _ (fun e => by simp [EntStable]))
            (sound_hydrateNested _ _ _ rest g' h))

end

/-! ### The passes only touch `ftype` resp. source info -/

/-- The classification pass only fills `ftype` fields: everything else about
the graph is untouched. -/
def OnlyFT (g g' : Graph) : Prop :=
  g'.ents.length = g.ents.length ∧ g'.entities = g.entities ∧
  g'.targets = g.targets ∧ g'.packages = g.packages ∧ g'.pkgs = g.pkgs ∧
  ∀ i, g'.entOf i = { g.entOf i with ftype := (g'.entOf i).ftype }

theorem onlyFT_refl (g : Graph) : OnlyFT g g := by
  refine ⟨rfl, rfl, rfl, rfl, rfl, fun i => ?_⟩
  rfl

theorem onlyFT_trans {g1 g2 g3 : Graph} (h1 : OnlyFT g1 g2) (h2 : OnlyFT g2 g3) :
    OnlyFT g1 g3 := by
  obtain ⟨a1, b1, c1, d1, e1, f1⟩ := h1
  obtain ⟨a2, b2, c2, d2, e2, f2⟩ := h2
  refine ⟨a2.trans a1, b2.trans b1, c2.trans c1, d2.trans d1, e2.trans e1, fun i => ?_⟩
  rw [f2 i, f1 i]

theorem onlyFT_updEnt_ftype (g : Graph) (i : Nat) (t : Option FieldType) :
    OnlyFT g (g.updEnt i fun e => { e with ftype := t }) := by
  refine ⟨length_updEnt g i _, rfl, rfl, rfl, rfl, fun j => ?_⟩
  by_cases hj : i = j
  · subst hj
    rw [entOf_updEnt_self']
    by_cases h : i < g.ents.length
    · rw [if_pos h]
    · rw [if_neg h]
  · rw [entOf_updEnt_ne g i j _ hj]

theorem onlyFT_typeFields (fids : List Nat) (g g' : Graph)
    (h : typeFields g fids = .ok g') : OnlyFT g g' := by
  induction fids generalizing g with
  | nil =>
    simp only [typeFields, pure, Except.pure, Except.ok.injEq] at h
    subst h; exact onlyFT_refl g
  | cons fid rest ih =>
    simp only [typeFields, bind, Except.bind] at h
    split at h
    · simp at h
    next t hft =>
      exact onlyFT_trans (onlyFT_updEnt_ftype g fid (some t)) (ih _ h)

theorem onlyFT_typeMapEntryFields (mes : List Nat) (g g' : Graph)
    (h : typeMapEntryFields g mes = .ok g') : OnlyFT g g' := by
  induction mes generalizing g with
  | nil =>
    simp only [typeMapEntryFields, pure, Except.pure, Except.ok.injEq] at h
    subst h; exact onlyFT_refl g
  | cons me rest ih =>
    simp only [typeMapEntryFields, bind, Except.bind] at h
    split at h
    · simp at h
    next g1 hg1 =>
      exact onlyFT_trans (onlyFT_typeFields _ _ _ hg1) (ih _ h)

theorem onlyFT_typePassMsg (g : Graph) (m : Nat) (g' : Graph)
    (h : typePassMsg g m = .ok g') : OnlyFT g g' := by
  simp only [typePassMsg, bind, Except.bind] at h
  split at h
  · simp at h
  next g1 hg1 =>
    exact onlyFT_trans (onlyFT_typeMapEntryFields _ _ _ hg1) (onlyFT_typeFields _ _ _ h)

theorem onlyFT_typePass (ms : List Nat) (g g' : Graph)
    (h : typePass g ms = .ok g') : OnlyFT g g' := by
  induction ms generalizing g with
  | nil =>
    simp only [typePass, pure, Except.pure, Except.ok.injEq] at h
    subst h; exact onlyFT_refl g
  | cons m rest ih =>
    simp only [typePass, bind, Except.bind] at h
    split at h
    · simp at h
    next g1 hg1 =>
      exact onlyFT_trans (onlyFT_typePassMsg _ _ _ hg1) (ih _ h)

/-- The source-info binder only fills `info`/`pkgInfo` fields. -/
def OnlyInfo (g g' : Graph) : Prop :=
  g'.ents.length = g.ents.length ∧ g'.entities = g.entities ∧
  g'.targets = g.targets ∧ g'.packages = g.packages ∧ g'.pkgs = g.pkgs ∧
  ∀ i, g'.entOf i = { g.entOf i with info := (g'.entOf i).info,
                                     pkgInfo := (g'.entOf i).pkgInfo }

theorem onlyInfo_refl (g : Graph) : OnlyInfo g g := by
  exact ⟨rfl, rfl, rfl, rfl, rfl, fun i => rfl⟩

theorem onlyInfo_trans {g1 g2 g3 : Graph} (h1 : OnlyInfo g1 g2) (h2 : OnlyInfo g2 g3) :
    OnlyInfo g1 g3 := by
  obtain ⟨a1, b1, c1, d1, e1, f1⟩ := h1
  obtain ⟨a2, b2, c2, d2, e2, f2⟩ := h2
  refine ⟨a2.trans a1, b2.trans b1, c2.trans c1, d2.trans d1, e2.trans e1, fun i => ?_⟩
  rw [f2 i, f1 i]

theorem onlyInfo_updEnt_info (g : Graph) (i : Nat) (t : Option Location) :
    OnlyInfo g (g.updEnt i fun e => { e with info := t }) := by
  refine ⟨length_updEnt g i _, rfl, rfl, rfl, rfl, fun j => ?_⟩
  by_cases hj : i = j
  · subst hj
    rw [entOf_updEnt_self']
    by_cases h : i < g.ents.length
    · rw [if_pos h]
    · rw [if_neg h]
  · rw [entOf_updEnt_ne g i j _ hj]

theorem onlyInfo_updEnt_pkgInfo (g : Graph) (i : Nat) (t : Option Location) :
    OnlyInfo g (g.updEnt i fun e => { e with pkgInfo := t }) := by
  refine ⟨length_updEnt g i _, rfl, rfl, rfl, rfl, fun j => ?_⟩
  by_cases hj : i = j
  · subst hj
    rw [entOf_updEnt_self']
    by_cases h : i < g.ents.length
    · rw [if_pos h]
    · rw [if_neg h]
  · rw [entOf_updEnt_ne g i j _ hj]

theorem onlyInfo_attachChild (g : Graph) (fid : Nat) (path : List Nat) (loc : Location) :
    OnlyInfo g (attachChild g fid path loc) := by
  unfold attachChild
  split
  · exact onlyInfo_updEnt_info g _ (some loc)
  · exact onlyInfo_refl g

theorem onlyInfo_hydrateLoc (g : Graph) (fid : Nat) (loc : Location) :
    OnlyInfo g (hydrateLoc g fid loc) := by
  unfold hydrateLoc
  split
  · split
    · exact onlyInfo_trans (onlyInfo_updEnt_info g fid (some loc))
        (onlyInfo_attachChild _ fid _ loc)
    · split
      · exact onlyInfo_trans (onlyInfo_updEnt_pkgInfo g fid (some loc))
          (onlyInfo_attachChild _ fid _ loc)
      · exact onlyInfo_refl g
  · exact onlyInfo_attachChild g fid _ loc

theorem onlyInfo_hydrateSourceCodeInfo (g : Graph) (fid : Nat)
    (fd : FileDescriptorProto) : OnlyInfo g (hydrateSourceCodeInfo g fid fd) := by
  unfold hydrateSourceCodeInfo
  generalize fd.location = locs
  induction locs generalizing g with
  | nil => exact onlyInfo_refl g
  | cons loc rest ih =>
    rw [List.foldl_cons]
    exact onlyInfo_trans (onlyInfo_hydrateLoc g fid loc) (ih _)

/-- Field-wise stability implies the `Sound` obligations. -/
theorem entStable_of_eq_set_ftype {a b : Entity}
    (h : b = { a with ftype := b.ftype }) : EntStable a b := by
  rw [h]; simp [EntStable]

theorem entStable_of_eq_set_info {a b : Entity}
    (h : b = { a with info := b.info, pkgInfo := b.pkgInfo }) : EntStable a b := by
  rw [h]; simp [EntStable]

theorem sound_of_onlyFT {g g' : Graph} (h : OnlyFT g g') : Sound g g' := by
  obtain ⟨a, b, c, d, e, f⟩ := h
  have hres : ∀ j, g'.resolveFQN j = g.resolveFQN j := by
    intro j
    have := f j
    exact resolveFQN_eq_of_entStable j (by rw [this]) (by rw [this]) (by rw [this])
  refine ⟨le_of_eq a.symm, fun i _ => entStable_of_eq_set_ftype (f i), c, d, e, ?_, ?_⟩
  · intro i h1 h2
    rw [a] at h2
    exact absurd h2 (Nat.not_lt.mpr h1)
  · rintro ⟨h1, h2⟩
    refine ⟨?_, ?_⟩
    · intro p hp
      rw [b] at hp
      have := h1 p hp
      exact ⟨a ▸ this.1, (hres p.2).trans this.2⟩
    · intro i hi
      rw [a] at hi
      rw [b, hres i]
      exact h2 i hi

theorem sound_of_onlyInfo {g g' : Graph} (h : OnlyInfo g g') : Sound g g' := by
  obtain ⟨a, b, c, d, e, f⟩ := h
  have hres : ∀ j, g'.resolveFQN j = g.resolveFQN j := by
    intro j
    have := f j
    exact resolveFQN_eq_of_entStable j (by rw [this]) (by rw [this]) (by rw [this])
  refine ⟨le_of_eq a.symm, fun i _ => entStable_of_eq_set_info (f i), c, d, e, ?_, ?_⟩
  · intro i h1 h2
    rw [a] at h2
    exact absurd h2 (Nat.not_lt.mpr h1)
  · rintro ⟨h1, h2⟩
    refine ⟨?_, ?_⟩
    · intro p hp
      rw [b] at hp
      have := h1 p hp
      exact ⟨a ▸ this.1, (hres p.2).trans this.2⟩
    · intro i hi
      rw [a] at hi
      rw [b, hres i]
      exact h2 i hi

theorem sound_hydrateFileMsgs (fid : Nat) (pfx : String)
    (mds : List DescriptorProto) (g g' : Graph)
    (h : hydrateFileMsgs g fid pfx mds = .ok g') : Sound g g' := by
  induction mds generalizing g with
  | nil =>
    simp only [hydrateFileMsgs, pure, Except.pure, Except.ok.injEq] at h
    subst h; exact sound_refl g
  | cons md rest ih =>
    simp only [hydrateFileMsgs, bind, Except.bind] at h
    split at h
    · simp at h
    next p hmsg =>
      exact sound_trans (sound_hydrateMessage g fid pfx md p.1 p.2 (by rw [hmsg]))
        (sound_trans (sound_updEnt _ _ _ (fun e => by simp [EntStable])) (ih _ h))

/-! ### The file-level master lemma -/

theorem sound_enumFoldStep (fid : Nat) (pfx : String) (g : Graph)
    (ed : EnumDescriptorProto) :
    Sound g ((hydrateEnum g fid pfx ed).1.updEnt fid fun e =>
      { e with enums := e.enums ++ [(hydrateEnum g fid pfx ed).2] }) :=
  sound_trans (sound_hydrateEnum g fid pfx ed)
    (sound_updEnt _ _ _ (fun e => by simp [EntStable]))

theorem hydrateFileRest_spec (g : Graph) (fid : Nat) (f : FileDescriptorProto)
    (g' : Graph) (fid' : Nat) (h : hydrateFileRest g fid f = .ok (g', fid')) :
    Sound g g' ∧ fid' = fid := by
  simp only [hydrateFileRest, bind, Except.bind] at h
  split at h
  · simp at h
  next g3 hmsgs =>
    split at h
    · simp at h
    next g4 hsvc =>
      split at h
      · simp at h
      next g5 htp =>
        simp only [pure, Except.pure, Except.ok.injEq, Prod.mk.injEq] at h
        obtain ⟨hg, hf⟩ := h
        subst hg
        refine ⟨?_, hf.symm⟩
        have s1 := sound_foldl (sound_enumFoldStep fid (filePfx f)) f.enumType g
        have s2 := sound_hydrateFileMsgs fid (filePfx f) f.messageType _ g3 hmsgs
        have s3 : Sound g3 g4 := by
          refine sound_foldlM ?_ f.service g3 g4 hsvc
          intro ga sd gb hstep
          simp only [bind, Except.bind] at hstep
          split at hstep
          · simp at hstep
          next p hsrv =>
            simp only [pure, Except.pure, Except.ok.injEq] at hstep
            subst hstep
            exact sound_trans (sound_hydrateService ga _ _ sd p.1 p.2 (by rw [hsrv]))
              (sound_updEnt _ _ _ (fun e => by simp [EntStable]))
        have s4 : Sound g4 g5 := sound_of_onlyFT (onlyFT_typePass _ _ _ htp)
        have s5 := sound_of_onlyInfo (onlyInfo_hydrateSourceCodeInfo g5 fid f)
        exact sound_trans s1 (sound_trans s2 (sound_trans s3 (sound_trans s4 s5)))

theorem length_registerTarget (g : Graph) (fid : Nat) (n : String) :
    (registerTarget g fid n).ents.length = g.ents.length := by
  unfold registerTarget
  split
  · exact length_updEnt g fid (fun e => { e with buildTarget := true })
  · rfl

theorem entOf_registerTarget_ne (g : Graph) (fid : Nat) (n : String) (i : Nat)
    (h : fid ≠ i) : (registerTarget g fid n).entOf i = g.entOf i := by
  unfold registerTarget
  split
  · exact entOf_updEnt_ne g fid i (fun e => { e with buildTarget := true }) h
  · rfl

theorem entOf_registerTarget_self (g : Graph) (fid : Nat) (n : String)
    (h : fid < g.ents.length) :
    (registerTarget g fid n).entOf fid =
      (if (g.targets.lookup n).isSome then
        { g.entOf fid with buildTarget := true } else g.entOf fid) := by
  unfold registerTarget
  cases hlk : g.targets.lookup n with
  | some x =>
    simp only [hlk, Option.isSome_some, if_true]
    exact entOf_updEnt_self g fid (fun e => { e with buildTarget := true }) h
  | none => simp [hlk]

theorem targets_registerTarget (g : Graph) (fid : Nat) (n : String) :
    (registerTarget g fid n).targets =
      (if (g.targets.lookup n).isSome then (n, some fid) :: g.targets
       else g.targets) := by
  unfold registerTarget
  cases hlk : g.targets.lookup n with
  | some x => rfl
  | none => rfl

theorem maps_registerTarget (g : Graph) (fid : Nat) (n : String) :
    (registerTarget g fid n).packages = g.packages ∧
    (registerTarget g fid n).pkgs = g.pkgs ∧
    (registerTarget g fid n).entities = g.entities := by
  unfold registerTarget
  split <;> exact ⟨rfl, rfl, rfl⟩

/-- Like `sound_updEnt`, but only the registry invariant, so the mutator may
change any field except the three `resolveFQN` reads. -/
theorem inv_updEnt_core (g : Graph) (i : Nat) (f : Entity → Entity)
    (hf : ∀ e, (f e).kind = e.kind ∧ (f e).name = e.name ∧ (f e).fqn = e.fqn)
    (h : Inv g) : Inv (g.updEnt i f) := by
  have hlen : (g.updEnt i f).ents.length = g.ents.length := length_updEnt g i f
  have hres : ∀ j, (g.updEnt i f).resolveFQN j = g.resolveFQN j := by
    intro j
    by_cases hj : i = j
    · subst hj
      rw [Graph.resolveFQN, Graph.resolveFQN, entOf_updEnt_self']
      by_cases hlt : i < g.ents.length
      · rw [if_pos hlt, (hf (g.entOf i)).1, (hf (g.entOf i)).2.1, (hf (g.entOf i)).2.2]
      · rw [if_neg hlt]
    · rw [Graph.resolveFQN, Graph.resolveFQN, entOf_updEnt_ne g i j f hj]
  obtain ⟨h1, h2⟩ := h
  constructor
  · intro p hp
    have := h1 p hp
    exact ⟨hlen ▸ this.1, (hres p.2).trans this.2⟩
  · intro j hj
    rw [hlen] at hj
    rw [hres j]
    exact h2 j hj

theorem inv_registerTarget (g : Graph) (fid : Nat) (n : String) (h : Inv g) :
    Inv (registerTarget g fid n) := by
  unfold registerTarget
  split
  · exact inv_updEnt_core g fid (fun e => { e with buildTarget := true })
      (fun e => ⟨rfl, rfl, rfl⟩) h
  · exact h

/-- Everything `hydrateFile` guarantees: the new file sits at the old table
end; older entities keep their stable fields; package state is untouched; the
registry invariant is preserved; the target map gains exactly the new file
under its path when (and only when) that path was requested; the file entity
records its descriptor, package and build-target flag; and no other new
entity is a file. -/
theorem hydrateFile_spec (g : Graph) (pid : Nat) (f : FileDescriptorProto)
    (g' : Graph) (fid : Nat) (h : hydrateFile g pid f = .ok (g', fid)) :
    fid = g.ents.length ∧
    g.ents.length < g'.ents.length ∧
    (∀ i, i < g.ents.length → EntStable (g.entOf i) (g'.entOf i)) ∧
    g'.packages = g.packages ∧ g'.pkgs = g.pkgs ∧
    (Inv g → Inv g') ∧
    g'.targets = (if (g.targets.lookup f.name).isSome then
      (f.name, some fid) :: g.targets else g.targets) ∧
    (g'.entOf fid).kind = .file ∧ (g'.entOf fid).name = f.name ∧
    (g'.entOf fid).fileDesc = some f ∧ (g'.entOf fid).pkgId = pid ∧
    ((g'.entOf fid).buildTarget = (g.targets.lookup f.name).isSome) ∧
    (∀ i, g.ents.length ≤ i → i < g'.ents.length → i ≠ fid →
      (g'.entOf i).kind ≠ .file) := by
  simp only [hydrateFile] at h
  obtain ⟨hs, hfid⟩ := hydrateFileRest_spec _ _ _ _ _ h
  subst hfid
  obtain ⟨hle, hstab, htg, hpk, hpg, hnf, hinv⟩ := hs
  have hfid0 : (g.createEnt (fileEntity f pid)).2 = g.ents.length := rfl
  have hlen1 : (((g.createEnt (fileEntity f pid)).1).add
      (g.createEnt (fileEntity f pid)).2).ents.length = g.ents.length + 1 := by
    rw [length_add, length_createEnt]
  have hT1 : (((g.createEnt (fileEntity f pid)).1).add
      (g.createEnt (fileEntity f pid)).2).targets = g.targets := rfl
  have hlenR : (registerTarget (((g.createEnt (fileEntity f pid)).1).add
      (g.createEnt (fileEntity f pid)).2) (g.createEnt (fileEntity f pid)).2
        f.name).ents.length = g.ents.length + 1 := by
    rw [length_registerTarget, hlen1]
  have hself1 : (((g.createEnt (fileEntity f pid)).1).add
      (g.createEnt (fileEntity f pid)).2).entOf (g.createEnt (fileEntity f pid)).2
        = fileEntity f pid := by
    rw [entOf_add, hfid0, entOf_createEnt_self]
  have hlow1 : ∀ i, i < g.ents.length →
      ((((g.createEnt (fileEntity f pid)).1).add
        (g.createEnt (fileEntity f pid)).2).entOf i) = g.entOf i := by
    intro i hi
    rw [entOf_add, entOf_createEnt_lt g (fileEntity f pid) i hi]
  have hselfR : (registerTarget (((g.createEnt (fileEntity f pid)).1).add
      (g.createEnt (fileEntity f pid)).2) (g.createEnt (fileEntity f pid)).2
        f.name).entOf (g.createEnt (fileEntity f pid)).2
      = (if (g.targets.lookup f.name).isSome then
          { fileEntity f pid with buildTarget := true } else fileEntity f pid) := by
    rw [entOf_registerTarget_self _ _ f.name (by rw [hlen1, hfid0]; omega)]
    rw [hself1, hT1]
  have hlowR : ∀ i, i < g.ents.length →
      (registerTarget (((g.createEnt (fileEntity f pid)).1).add
        (g.createEnt (fileEntity f pid)).2) (g.createEnt (fileEntity f pid)).2
          f.name).entOf i = g.entOf i := by
    intro i hi
    rw [entOf_registerTarget_ne _ _ f.name i (by rw [hfid0]; omega), hlow1 i hi]
  have hstabF := hstab (g.createEnt (fileEntity f pid)).2 (by rw [hlenR, hfid0]; omega)
  rw [hselfR] at hstabF
  refine ⟨hfid0, ?_, ?_, ?_, ?_, ?_, ?_, ?_, ?_, ?_, ?_, ?_, ?_⟩
  · calc g.ents.length < g.ents.length + 1 := Nat.lt_succ_self _
      _ ≤ g'.ents.length := hlenR ▸ hle
  · intro i hi
    have := hstab i (by rw [hlenR]; omega)
    rw [hlowR i hi] at this
    exact this
  · rw [hpk, (maps_registerTarget _ _ f.name).1]; rfl
  · rw [hpg, (maps_registerTarget _ _ f.name).2.1]; rfl
  · intro hi
    refine hinv ?_
    exact inv_registerTarget _ _ f.name (inv_createAdd g (fileEntity f pid) hi)
  · rw [htg, targets_registerTarget, hT1, hfid0]
  · cases hlk : (g.targets.lookup f.name).isSome <;> rw [hlk] at hstabF <;>
      simp only [ite_true, ite_false, Bool.false_eq_true] at hstabF <;>
      exact hstabF.1.trans rfl
  · cases hlk : (g.targets.lookup f.name).isSome <;> rw [hlk] at hstabF <;>
      simp only [ite_true, ite_false, Bool.false_eq_true] at hstabF <;>
      exact hstabF.2.1.trans rfl
  · cases hlk : (g.targets.lookup f.name).isSome <;> rw [hlk] at hstabF <;>
      simp only [ite_true, ite_false, Bool.false_eq_true] at hstabF <;>
      exact hstabF.2.2.2.2.2.2.2.1.trans rfl
  · cases hlk : (g.targets.lookup f.name).isSome <;> rw [hlk] at hstabF <;>
      simp only [ite_true, ite_false, Bool.false_eq_true] at hstabF <;>
      exact hstabF.2.2.2.2.2.2.1.trans rfl
  · cases hlk : (g.targets.lookup f.name).isSome <;> rw [hlk] at hstabF
    · simp only [ite_true] at hstabF
      rw [hstabF.2.2.2.2.2.1]
      rfl
    · simp only [ite_false, Bool.false_eq_true] at hstabF
      rw [hstabF.2.2.2.2.2.1]
      rfl
  · intro i hgei hlti hne
    by_cases hmid : i < g.ents.length + 1
    · rw [hfid0] at hne
      omega
    · exact hnf i (by rw [hlenR]; omega) hlti

/-! ### ProcessDescriptors-level invariants -/

theorem foldlM_pres {α : Type} {P : Graph → Prop}
    {step : Graph → α → Except Err Graph}
    (h : ∀ g x g', P g → step g x = .ok g' → P g') :
    ∀ (l : List α) (g g' : Graph), P g → l.foldlM step g = .ok g' → P g' := by
  intro l
  induction l with
  | nil =>
    intro g g' hp hr
    simp only [List.foldlM_nil, pure, Except.pure, Except.ok.injEq] at hr
    subst hr; exact hp
  | cons x xs ih =>
    intro g g' hp hr
    simp only [List.foldlM_cons] at hr
    cases hx : step g x with
    | error e => rw [hx] at hr; simp [bind, Except.bind] at hr
    | ok g1 =>
      rw [hx] at hr
      simp only [bind, Except.bind] at hr
      exact ih g1 g' (h g x g1 hp hx) hr

theorem inv_hydratePackage (g : Graph) (f : FileDescriptorProto) (h : Inv g) :
    Inv (hydratePackage g f).1 := by
  unfold hydratePackage
  split
  · exact h
  · exact h

theorem inv_pkgAddFile (g : Graph) (pid fid : Nat) (h : Inv g) :
    Inv (pkgAddFile g pid fid) := h

theorem inv_ProcessDescriptors (req : CodeGeneratorRequest) (g : Graph)
    (h : ProcessDescriptors req = .ok g) : Inv g := by
  simp only [ProcessDescriptors] at h
  refine foldlM_pres ?_ req.protoFile _ g ?_ h
  · intro ga f gb hp hstep
    simp only [bind, Except.bind] at hstep
    split at hstep
    · simp at hstep
    next p hfile =>
      simp only [pure, Except.pure, Except.ok.injEq] at hstep
      subst hstep
      have h1 := inv_hydratePackage ga f hp
      have h2 := (hydrateFile_spec _ _ _ _ _ (show hydrateFile (hydratePackage ga f).1
        (hydratePackage ga f).2 f = .ok (p.1, p.2) from by rw [hfile])).2.2.2.2.2.1 h1
      exact inv_pkgAddFile p.1 _ p.2 h2
  · constructor
    · intro p hp
      simp at hp
    · intro i hi
      simp at hi

/-- A registered pair is what `lookup` returns when the keys are collision
free. -/
theorem lookup_eq_of_mem_nodup {l : List (String × Nat)} {k : String} {v : Nat}
    (hm : (k, v) ∈ l) (hnd : (l.map Prod.fst).Nodup) : l.lookup k = some v := by
  induction l with
  | nil => cases hm
  | cons p rest ih =>
    obtain ⟨pk, pv⟩ := p
    rcases List.mem_cons.mp hm with hp | hp
    · rw [Prod.mk.injEq] at hp
      obtain ⟨h1, h2⟩ := hp
      subst h1; subst h2
      simp [List.lookup]
    · have hk : k ≠ pk := by
        intro hkp
        have hmem : pk ∈ rest.map Prod.fst := by
          subst hkp
          exact List.mem_map.mpr ⟨(k, v), hp, rfl⟩
        simp only [List.map_cons, List.nodup_cons] at hnd
        exact hnd.1 hmem
      have hnd' : (rest.map Prod.fst).Nodup := by
        simp only [List.map_cons, List.nodup_cons] at hnd
        exact hnd.2
      have hbeq : (k == pk) = false := by
        simp [hk]
      simp only [List.lookup, hbeq]
      exact ih hp hnd'

/-- C1.  FQN round-trip: in a well-formed batch (no two hydrated entities
share a resolved FQN, i.e. the registry keys are collision free), `Lookup`
applied to any hydrated entity's resolved FQN — the path for a file, the
dot-qualified FQN for everything else — returns exactly that entity. -/
theorem fqn_round_trip (req : CodeGeneratorRequest) (g : Graph)
    (hok : ProcessDescriptors req = .ok g)
    (hnodup : (g.entities.map Prod.fst).Nodup) :
    ∀ i, i < g.ents.length → g.Lookup (g.resolveFQN i) = some i := by
  intro i hi
  have hinv := inv_ProcessDescriptors req g hok
  have hmem := hinv.2 i hi
  exact lookup_eq_of_mem_nodup hmem hnodup

/-! ### Concrete example batches (used to witness the hypotheses of the
theorems on concrete runs) -/

/-- Extract the graph of a successful run. -/
def runGraph (req : CodeGeneratorRequest) : Graph :=
  match ProcessDescriptors req with
  | .ok g => g
  | .error _ => default

/-- `message B {}` in `b.proto`, package `x`. -/
def msgBEx : DescriptorProto := .mk "B" [] [] [] [] false

def fileBEx : FileDescriptorProto :=
  { name := "b.proto", package := "x", messageType := [msgBEx], enumType := [],
    service := [], location := [] }

/-- A singular message-typed field `b` of type `.x.B`. -/
def fldBRef : FieldDescriptorProto :=
  { name := "b", number := 1, label := .optionalL, type := .messageT,
    typeName := ".x.B", oneofIndex := none }

/-- `message A { B b = 1; }` in `a.proto`, package `x`. -/
def msgAEx : DescriptorProto := .mk "A" [fldBRef] [] [] [] false

def fileAEx : FileDescriptorProto :=
  { name := "a.proto", package := "x", messageType := [msgAEx], enumType := [],
    service := [],
    location := [{ path := [12] }, { path := [2] }, { path := [4, 0, 2, 0] }] }

/-- `b.proto` (no dependencies) processed before `a.proto`; only `a.proto`
is requested for generation. -/
def reqEx : CodeGeneratorRequest :=
  { fileToGenerate := ["a.proto"], protoFile := [fileBEx, fileAEx] }

def gEx : Graph := runGraph reqEx

/-- Witness for C1 on the concrete two-file batch: hydration succeeds, the
registry keys are collision free, and the round trip holds for every entity. -/
theorem fqn_round_trip_witness :
    ProcessDescriptors reqEx = .ok gEx ∧
    (gEx.entities.map Prod.fst).Nodup ∧
    ∀ i, i < gEx.ents.length → gEx.Lookup (gEx.resolveFQN i) = some i :=
  ⟨rfl, by decide, fun i hi => fqn_round_trip reqEx gEx rfl (by decide) i hi⟩

/-! ### Group rejection and classification order -/

/-- A group-typed field in `g.proto`, package `z`. -/
def fldGrpEx : FieldDescriptorProto :=
  { name := "gf", number := 1, label := .optionalL, type := .groupT,
    typeName := "", oneofIndex := none }

def msgGEx : DescriptorProto := .mk "G" [fldGrpEx] [] [] [] false

def fileGEx : FileDescriptorProto :=
  { name := "g.proto", package := "z", messageType := [msgGEx], enumType := [],
    service := [], location := [] }

def reqGrpEx : CodeGeneratorRequest :=
  { fileToGenerate := [], protoFile := [fileGEx] }

/-- C5.  Group rejection: a field whose underlying type is the deprecated
group kind makes the classifier fail fatally with no `FieldType`; the
classification pass aborts at that field (no continuation runs), and on a
whole batch containing such a field construction returns the fatal error and
no graph. -/
theorem group_rejection (g : Graph) (fid : Nat)
    (h : (g.fieldDescOf fid).type = .groupT) :
    hydrateFieldType g fid = .error .groupErr ∧
    (∀ rest, typeFields g (fid :: rest) = .error .groupErr) ∧
    ProcessDescriptors reqGrpEx = .error .groupErr := by
  have h1 : hydrateFieldType g fid = .error .groupErr := by
    unfold hydrateFieldType
    rw [if_pos h]
  refine ⟨h1, fun rest => ?_, rfl⟩
  simp [typeFields, h1, bind, Except.bind]

/-- Witness for C5: the single-field graph holding the group-typed field of
`reqGrpEx`. -/
def gGrpEx : Graph :=
  { ents := [{ kind := .field, name := "gf", fqn := ".z.G.gf",
               fieldDesc := some fldGrpEx }],
    entities := [(".z.G.gf", 0)] }

theorem group_rejection_witness :
    (gGrpEx.fieldDescOf 0).type = .groupT ∧
    hydrateFieldType gGrpEx 0 = .error .groupErr ∧
    (∀ rest, typeFields gGrpEx (0 :: rest) = .error .groupErr) ∧
    ProcessDescriptors reqGrpEx = .error .groupErr :=
  ⟨rfl, (group_rejection gGrpEx 0 rfl).1, (group_rejection gGrpEx 0 rfl).2.1,
    (group_rejection gGrpEx 0 rfl).2.2⟩

theorem mustSeen_of_lookup (g : Graph) (fqn : String) (id : Nat)
    (h : g.Lookup fqn = some id) : mustSeen g fqn = .ok id := by
  unfold mustSeen
  rw [show g.entities.lookup fqn = some id from h]

theorem mustSeen_of_lookup_none (g : Graph) (fqn : String)
    (h : g.Lookup fqn = none) : mustSeen g fqn = .error (.unseenErr fqn) := by
  unfold mustSeen
  rw [show g.entities.lookup fqn = none from h]

/-- C4.  Classification order: the classifier tests, in this order — group
(fatal), repeated (routed to repeated handling, whose element mirrors the
underlying scalar/enum/message type), enum (registry-resolved `Enum` kind),
message (registry-resolved `Embedded` kind), otherwise scalar carrying the
declared primitive kind. -/
theorem classification_order (g : Graph) (fid : Nat) :
    ((g.fieldDescOf fid).type = .groupT →
      hydrateFieldType g fid = .error .groupErr) ∧
    ((g.fieldDescOf fid).type ≠ .groupT →
      (g.fieldDescOf fid).label = .repeatedL →
      hydrateFieldType g fid = hydrateRepeatedFieldType g fid ∧
      ((g.fieldDescOf fid).type ≠ .enumT → (g.fieldDescOf fid).type ≠ .messageT →
        hydrateRepeatedFieldType g fid =
          .ok (.rep (g.fieldDescOf fid).type (.scalarE (g.fieldDescOf fid).type))) ∧
      (∀ e, (g.fieldDescOf fid).type = .enumT →
        g.Lookup (g.fieldDescOf fid).typeName = some e →
        (g.entOf e).kind = .enum →
        hydrateRepeatedFieldType g fid =
          .ok (.rep (g.fieldDescOf fid).type (.enumE (g.fieldDescOf fid).type e))) ∧
      (∀ m, (g.fieldDescOf fid).type = .messageT →
        g.Lookup (g.fieldDescOf fid).typeName = some m →
        (g.entOf m).kind = .msg → (g.entOf m).isMapEntry = false →
        hydrateRepeatedFieldType g fid =
          .ok (.rep (g.fieldDescOf fid).type (.embedE (g.fieldDescOf fid).type m)))) ∧
    ((g.fieldDescOf fid).type ≠ .groupT →
      (g.fieldDescOf fid).label ≠ .repeatedL →
      ∀ e, (g.fieldDescOf fid).type = .enumT →
        g.Lookup (g.fieldDescOf fid).typeName = some e →
        (g.entOf e).kind = .enum →
        hydrateFieldType g fid = .ok (.enum (g.fieldDescOf fid).type e)) ∧
    ((g.fieldDescOf fid).type ≠ .groupT →
      (g.fieldDescOf fid).label ≠ .repeatedL →
      ∀ m, (g.fieldDescOf fid).type = .messageT →
        g.Lookup (g.fieldDescOf fid).typeName = some m →
        (g.entOf m).kind = .msg →
        hydrateFieldType g fid = .ok (.embed (g.fieldDescOf fid).type m)) ∧
    ((g.fieldDescOf fid).type ≠ .groupT →
      (g.fieldDescOf fid).label ≠ .repeatedL →
      (g.fieldDescOf fid).type ≠ .enumT → (g.fieldDescOf fid).type ≠ .messageT →
      hydrateFieldType g fid = .ok (.scalar (g.fieldDescOf fid).type)) := by
  refine ⟨?_, ?_, ?_, ?_, ?_⟩
  · intro h
    unfold hydrateFieldType
    rw [if_pos h]
  · intro hg hr
    refine ⟨?_, ?_, ?_, ?_⟩
    · unfold hydrateFieldType
      rw [if_neg hg, if_pos hr]
    · intro he hm
      unfold hydrateRepeatedFieldType
      dsimp only
      cases htype : (g.fieldDescOf fid).type <;>
        first
          | rfl
          | exact absurd htype he
          | exact absurd htype hm
    · intro e he hlk hk
      unfold hydrateRepeatedFieldType
      dsimp only
      rw [he]
      simp only [bind, Except.bind, mustSeen_of_lookup g _ e hlk]
      rw [if_pos hk]
    · intro m hm hlk hk hme
      unfold hydrateRepeatedFieldType
      dsimp only
      rw [hm]
      simp only [bind, Except.bind, mustSeen_of_lookup g _ m hlk]
      rw [if_pos hk, hme]
      simp
  · intro hg hr e he hlk hk
    unfold hydrateFieldType hydrateEnumFieldType
    rw [if_neg hg, if_neg hr, if_pos he]
    simp only [bind, Except.bind, mustSeen_of_lookup g _ e hlk]
    rw [if_pos hk, he]
  · intro hg hr m hm hlk hk
    unfold hydrateFieldType hydrateEmbedFieldType
    have hne : (g.fieldDescOf fid).type ≠ .enumT := by
      rw [hm]; intro hc; cases hc
    rw [if_neg hg, if_neg hr, if_neg hne, if_pos hm]
    simp only [bind, Except.bind, mustSeen_of_lookup g _ m hlk]
    rw [if_pos hk, hm]
  · intro hg hr he hm
    unfold hydrateFieldType
    rw [if_neg hg, if_neg hr, if_neg he, if_neg hm]

/-- Witness for C4: field 4 of the concrete batch (`A.b`, singular message
type `.x.B`) classifies as an `Embedded` FieldType via the registry. -/
theorem classification_order_witness :
    hydrateFieldType gEx 4 = .ok (.embed (gEx.fieldDescOf 4).type 1) :=
  (classification_order gEx 4).2.2.2.1 (by decide) (by decide) 1 (by decide)
    (by decide) (by decide)

/-! ### Broken references -/

theorem lookup_cons_ne {l : List (String × Nat)} {k k' : String} {v : Nat}
    (h : k ≠ k') : ((k', v) :: l).lookup k = l.lookup k := by
  have hbeq : (k == k') = false := by simp [h]
  simp [List.lookup, hbeq]

theorem entities_createAdd (g : Graph) (e : Entity) :
    (((g.createEnt e).1).add (g.createEnt e).2).entities
      = (((g.createEnt e).1).resolveFQN g.ents.length, g.ents.length)
          :: g.entities := rfl

theorem resolveFQN_createEnt_self (g : Graph) (e : Entity) (hk : e.kind ≠ .file) :
    ((g.createEnt e).1).resolveFQN g.ents.length = e.fqn := by
  unfold Graph.resolveFQN
  rw [entOf_createEnt_self]
  rw [if_neg hk]

/-- C6.  Broken reference: `mustSeen` resolves a present FQN to its registered
entity and never fails on it; an absent FQN raises the fatal error naming the
missing FQN, and that error aborts each cross-reference site (singular and
repeated enum/message classification, and method input resolution). -/
theorem broken_reference (g : Graph) (fqn : String) :
    (g.Lookup fqn = none → mustSeen g fqn = .error (.unseenErr fqn)) ∧
    (∀ id, g.Lookup fqn = some id → mustSeen g fqn = .ok id) ∧
    (∀ fid, (g.fieldDescOf fid).typeName = fqn → g.Lookup fqn = none →
      (g.fieldDescOf fid).type ≠ .groupT →
      ((g.fieldDescOf fid).type = .enumT ∨ (g.fieldDescOf fid).type = .messageT) →
      hydrateFieldType g fid = .error (.unseenErr fqn)) ∧
    (∀ sid md, md.inputType = fqn →
      fqn ≠ (g.entOf sid).fqn ++ "." ++ md.name → g.Lookup fqn = none →
      hydrateMethod g sid md = .error (.unseenErr fqn)) := by
  refine ⟨mustSeen_of_lookup_none g fqn, fun id h => mustSeen_of_lookup g fqn id h,
    ?_, ?_⟩
  · intro fid htn hnone hgrp htype
    have hms : mustSeen g (g.fieldDescOf fid).typeName = .error (.unseenErr fqn) := by
      rw [htn]
      exact mustSeen_of_lookup_none g fqn hnone
    unfold hydrateFieldType
    rw [if_neg hgrp]
    by_cases hr : (g.fieldDescOf fid).label = .repeatedL
    · rw [if_pos hr]
      unfold hydrateRepeatedFieldType
      dsimp only
      rcases htype with ht | ht <;> rw [ht] <;> simp only [hms, bind, Except.bind]
    · rw [if_neg hr]
      rcases htype with ht | ht
      · rw [if_pos ht]
        unfold hydrateEnumFieldType
        simp only [bind, Except.bind, hms]
      · have hne : (g.fieldDescOf fid).type ≠ .enumT := by
          rw [ht]; intro hc; cases hc
        rw [if_neg hne, if_pos ht]
        unfold hydrateEmbedFieldType
        simp only [bind, Except.bind, hms]
  · intro sid md hin hne hnone
    unfold hydrateMethod
    dsimp only
    have hres : (((g.createEnt (methodEntity g sid md)).1).add
        (g.createEnt (methodEntity g sid md)).2).entities
        = ((g.entOf sid).fqn ++ "." ++ md.name, g.ents.length) :: g.entities := by
      rw [entities_createAdd, resolveFQN_createEnt_self g _ (by simp [methodEntity])]
      rfl
    have hms2 : mustSeen (((g.createEnt (methodEntity g sid md)).1).add
        (g.createEnt (methodEntity g sid md)).2) md.inputType
        = .error (.unseenErr md.inputType) := by
      unfold mustSeen
      rw [hres, hin, lookup_cons_ne hne]
      rw [show List.lookup fqn g.entities = none from hnone]
    rw [hms2, hin]

/-- Witness for C6: the absent FQN `.x.Missing` fails fatally naming itself;
the present FQN `.x.B` resolves to its entity. -/
theorem broken_reference_witness :
    mustSeen gEx ".x.Missing" = .error (.unseenErr ".x.Missing") ∧
    mustSeen gEx ".x.B" = .ok 1 :=
  ⟨(broken_reference gEx ".x.Missing").1 (by decide),
   (broken_reference gEx ".x.B").2.1 1 (by decide)⟩

/-! ### Cross-reference identity -/

theorem lookup_of_mustSeen (g : Graph) (fqn : String) (id : Nat)
    (h : mustSeen g fqn = .ok id) : g.Lookup fqn = some id := by
  unfold mustSeen at h
  cases hlk : g.entities.lookup fqn with
  | some x =>
    rw [hlk] at h
    simp only [Except.ok.injEq] at h
    subst h
    exact hlk
  | none => rw [hlk] at h; cases h

/-- What a successful repeated-field classification can return: a `repT`
whose element mirrors the underlying type (with enum/message elements being
registry entries), or a `mapT` when the registry target is a map entry. -/
theorem hydrateRepeated_cases (g : Graph) (fid : Nat) (t : FieldType)
    (h : hydrateRepeatedFieldType g fid = .ok t) :
    (∃ el, t = .rep (g.fieldDescOf fid).type el ∧
      (el = .scalarE (g.fieldDescOf fid).type ∨
       (∃ id, el = .enumE (g.fieldDescOf fid).type id ∧
         g.Lookup (g.fieldDescOf fid).typeName = some id ∧
         (g.entOf id).kind = .enum) ∨
       (∃ id, el = .embedE (g.fieldDescOf fid).type id ∧
         g.Lookup (g.fieldDescOf fid).typeName = some id ∧
         (g.entOf id).kind = .msg))) ∨
    (∃ k el m, t = .map (g.fieldDescOf fid).type k el ∧
      g.Lookup (g.fieldDescOf fid).typeName = some m ∧
      (g.entOf m).kind = .msg ∧ (g.entOf m).isMapEntry = true ∧
      hydrateMapFieldType g fid m = .ok t) := by
  unfold hydrateRepeatedFieldType at h
  dsimp only at h
  split at h
  next henum =>
    simp only [bind, Except.bind] at h
    split at h
    · simp at h
    next e hms =>
      split at h
      next hk =>
        simp only [Except.ok.injEq] at h
        subst h
        refine Or.inl ⟨_, by rw [henum], Or.inr (Or.inl ⟨e, by rw [henum], ?_, hk⟩)⟩
        exact lookup_of_mustSeen g _ e hms
      · simp at h
  next hmsg =>
    simp only [bind, Except.bind] at h
    split at h
    · simp at h
    next m hms =>
      split at h
      next hk =>
        split at h
        next hme =>
          -- map entry: routed to hydrateMapFieldType
          have hmap := h
          unfold hydrateMapFieldType at h
          simp only [bind, Except.bind] at h
          split at h
          next k v hk0 hv0 =>
            split at h
            next kt vt hkt hvt =>
              simp only [Except.ok.injEq] at h
              refine Or.inr ⟨_, _, m, by rw [← h, hmsg], ?_, hk, hme, hmap⟩
              exact lookup_of_mustSeen g _ m hms
            · simp at h
          · simp at h
        next hme =>
          simp only [Except.ok.injEq] at h
          subst h
          refine Or.inl ⟨_, by rw [hmsg], Or.inr (Or.inr ⟨m, by rw [hmsg], ?_, hk⟩)⟩
          exact lookup_of_mustSeen g _ m hms
      · simp at h
  next h1 h2 =>
    simp only [Except.ok.injEq] at h
    subst h
    exact Or.inl ⟨_, rfl, Or.inl rfl⟩

/-- C2.  Cross-reference identity: every cross-reference a classification or
method hydration produces is exactly the entity the registry holds under the
referenced FQN at that moment (an identity link, never a copy); and in the
concrete two-file batch where `b.proto` is processed before `a.proto`, the
`Embedded` FieldType of `A.b` holds the very message entity (index 1) that
`b.proto`'s own hydration created and that `Lookup ".x.B"` returns. -/
theorem cross_reference_identity :
    (∀ g fid pt id, hydrateFieldType g fid = .ok (.embed pt id) →
      g.Lookup (g.fieldDescOf fid).typeName = some id ∧ (g.entOf id).kind = .msg) ∧
    (∀ g fid pt id, hydrateFieldType g fid = .ok (.enum pt id) →
      g.Lookup (g.fieldDescOf fid).typeName = some id ∧ (g.entOf id).kind = .enum) ∧
    (∀ g fid pt pe id, hydrateFieldType g fid = .ok (.rep pt (.embedE pe id)) →
      g.Lookup (g.fieldDescOf fid).typeName = some id ∧ (g.entOf id).kind = .msg) ∧
    (∀ g fid pt pe id, hydrateFieldType g fid = .ok (.rep pt (.enumE pe id)) →
      g.Lookup (g.fieldDescOf fid).typeName = some id ∧ (g.entOf id).kind = .enum) ∧
    (∀ g sid md g' mid, hydrateMethod g sid md = .ok (g', mid) →
      ∃ inId outId, (g'.entOf mid).methodIn = some inId ∧
        (g'.entOf mid).methodOut = some outId ∧
        g'.Lookup md.inputType = some inId ∧
        g'.Lookup md.outputType = some outId) ∧
    ((gEx.entOf 4).fieldDesc = some fldBRef ∧
     (gEx.entOf 4).ftype = some (.embed .messageT 1) ∧
     gEx.Lookup ".x.B" = some 1 ∧
     (gEx.entOf 1).kind = .msg ∧ (gEx.entOf 1).name = "B" ∧
     (gEx.entOf 0).kind = .file ∧ (gEx.entOf 0).name = "b.proto" ∧
     (gEx.entOf 0).msgs = [1]) := by
  have hscalar : ∀ g fid t, hydrateFieldType g fid = .ok t →
      ((g.fieldDescOf fid).label ≠ .repeatedL) →
      ((g.fieldDescOf fid).type = .enumT →
        ∃ id, t = .enum (g.fieldDescOf fid).type id ∧
          g.Lookup (g.fieldDescOf fid).typeName = some id ∧
          (g.entOf id).kind = .enum) ∧
      ((g.fieldDescOf fid).type = .messageT →
        ∃ id, t = .embed (g.fieldDescOf fid).type id ∧
          g.Lookup (g.fieldDescOf fid).typeName = some id ∧
          (g.entOf id).kind = .msg) ∧
      ((g.fieldDescOf fid).type ≠ .enumT → (g.fieldDescOf fid).type ≠ .messageT →
        t = .scalar (g.fieldDescOf fid).type) := by
    intro g fid t h hr
    unfold hydrateFieldType at h
    dsimp only at h
    by_cases h1 : (g.fieldDescOf fid).type = .groupT
    · rw [if_pos h1] at h; cases h
    rw [if_neg h1, if_neg hr] at h
    by_cases h3 : (g.fieldDescOf fid).type = .enumT
    · rw [if_pos h3] at h
      unfold hydrateEnumFieldType at h
      simp only [bind, Except.bind] at h
      refine ⟨fun _ => ?_, fun hmsg => absurd (h3.symm.trans hmsg) (by decide),
        fun hne _ => absurd h3 hne⟩
      split at h
      · simp at h
      next e hms =>
        split at h
        next hk =>
          simp only [Except.ok.injEq] at h
          exact ⟨e, h.symm, lookup_of_mustSeen g _ e hms, hk⟩
        · simp at h
    rw [if_neg h3] at h
    by_cases h4 : (g.fieldDescOf fid).type = .messageT
    · rw [if_pos h4] at h
      unfold hydrateEmbedFieldType at h
      simp only [bind, Except.bind] at h
      refine ⟨fun he => absurd he h3, fun _ => ?_, fun _ hne => absurd h4 hne⟩
      split at h
      · simp at h
      next m hms =>
        split at h
        next hk =>
          simp only [Except.ok.injEq] at h
          exact ⟨m, h.symm, lookup_of_mustSeen g _ m hms, hk⟩
        · simp at h
    rw [if_neg h4] at h
    simp only [Except.ok.injEq] at h
    exact ⟨fun he => absurd he h3, fun hm => absurd hm h4, fun _ _ => h.symm⟩
  have hrep : ∀ g fid t, hydrateFieldType g fid = .ok t →
      ((g.fieldDescOf fid).label = .repeatedL) →
      hydrateRepeatedFieldType g fid = .ok t := by
    intro g fid t h hr
    unfold hydrateFieldType at h
    dsimp only at h
    by_cases h1 : (g.fieldDescOf fid).type = .groupT
    · rw [if_pos h1] at h; cases h
    rw [if_neg h1, if_pos hr] at h
    exact h
  refine ⟨?_, ?_, ?_, ?_, ?_, ?_⟩
  · intro g fid pt id h
    by_cases hr : (g.fieldDescOf fid).label = .repeatedL
    · have := hydrateRepeated_cases g fid _ (hrep g fid _ h hr)
      rcases this with ⟨el, heq, _⟩ | ⟨k, el, m, heq, _⟩ <;> cases heq
    · by_cases hm : (g.fieldDescOf fid).type = .messageT
      · obtain ⟨id', heq, hlk, hk⟩ := ((hscalar g fid _ h hr).2.1) hm
        cases heq
        exact ⟨hlk, hk⟩
      · by_cases he : (g.fieldDescOf fid).type = .enumT
        · obtain ⟨id', heq, _, _⟩ := ((hscalar g fid _ h hr).1) he
          cases heq
        · have := (hscalar g fid _ h hr).2.2 he hm
          cases this
  · intro g fid pt id h
    by_cases hr : (g.fieldDescOf fid).label = .repeatedL
    · have := hydrateRepeated_cases g fid _ (hrep g fid _ h hr)
      rcases this with ⟨el, heq, _⟩ | ⟨k, el, m, heq, _⟩ <;> cases heq
    · by_cases he : (g.fieldDescOf fid).type = .enumT
      · obtain ⟨id', heq, hlk, hk⟩ := ((hscalar g fid _ h hr).1) he
        cases heq
        exact ⟨hlk, hk⟩
      · by_cases hm : (g.fieldDescOf fid).type = .messageT
        · obtain ⟨id', heq, _, _⟩ := ((hscalar g fid _ h hr).2.1) hm
          cases heq
        · have := (hscalar g fid _ h hr).2.2 he hm
          cases this
  · intro g fid pt pe id h
    by_cases hr : (g.fieldDescOf fid).label = .repeatedL
    · have := hydrateRepeated_cases g fid _ (hrep g fid _ h hr)
      rcases this with ⟨el, heq, hel⟩ | ⟨k, el, m, heq, _⟩
      · rw [FieldType.rep.injEq] at heq
        obtain ⟨hpt, hel'⟩ := heq
        subst hel'
        rcases hel with hs | ⟨id', he, _⟩ | ⟨id', he, hlk, hk⟩
        · cases hs
        · cases he
        · rw [Elem.embedE.injEq] at he
          obtain ⟨_, hid⟩ := he
          subst hid
          exact ⟨hlk, hk⟩
      · cases heq
    · by_cases he : (g.fieldDescOf fid).type = .enumT
      · obtain ⟨id', heq, _, _⟩ := ((hscalar g fid _ h hr).1) he
        cases heq
      · by_cases hm : (g.fieldDescOf fid).type = .messageT
        · obtain ⟨id', heq, _, _⟩ := ((hscalar g fid _ h hr).2.1) hm
          cases heq
        · have := (hscalar g fid _ h hr).2.2 he hm
          cases this
  · intro g fid pt pe id h
    by_cases hr : (g.fieldDescOf fid).label = .repeatedL
    · have := hydrateRepeated_cases g fid _ (hrep g fid _ h hr)
      rcases this with ⟨el, heq, hel⟩ | ⟨k, el, m, heq, _⟩
      · rw [FieldType.rep.injEq] at heq
        obtain ⟨hpt, hel'⟩ := heq
        subst hel'
        rcases hel with hs | ⟨id', he, hlk, hk⟩ | ⟨id', he, _⟩
        · cases hs
        · rw [Elem.enumE.injEq] at he
          obtain ⟨_, hid⟩ := he
          subst hid
          exact ⟨hlk, hk⟩
        · cases he
      · cases heq
    · by_cases he : (g.fieldDescOf fid).type = .enumT
      · obtain ⟨id', heq, _, _⟩ := ((hscalar g fid _ h hr).1) he
        cases heq
      · by_cases hm : (g.fieldDescOf fid).type = .messageT
        · obtain ⟨id', heq, _, _⟩ := ((hscalar g fid _ h hr).2.1) hm
          cases heq
        · have := (hscalar g fid _ h hr).2.2 he hm
          cases this
  · intro g sid md g' mid h
    unfold hydrateMethod at h
    dsimp only at h
    split at h
    · simp at h
    next inId hmsIn =>
      split at h
      next hkIn =>
        split at h
        · simp at h
        next outId hmsOut =>
          split at h
          next hkOut =>
            simp only [Except.ok.injEq, Prod.mk.injEq] at h
            obtain ⟨hg, hm⟩ := h
            subst hg
            subst hm
            have hlt1 : (g.createEnt (methodEntity g sid md)).2 <
                ((((g.createEnt (methodEntity g sid md)).1).add
                  (g.createEnt (methodEntity g sid md)).2)).ents.length := by
              rw [length_add, length_createEnt]
              exact Nat.lt_succ_self _
            have hlt2 : (g.createEnt (methodEntity g sid md)).2 <
                ((((g.createEnt (methodEntity g sid md)).1).add
                  (g.createEnt (methodEntity g sid md)).2).updEnt
                    (g.createEnt (methodEntity g sid md)).2
                    (fun e => { e with methodIn := some inId })).ents.length := by
              rw [length_updEnt]
              exact hlt1
            refine ⟨inId, outId, ?_, ?_, ?_, ?_⟩
            · rw [entOf_updEnt_self _ _ _ hlt2, entOf_updEnt_self _ _ _ hlt1]
            · rw [entOf_updEnt_self _ _ _ hlt2]
            · exact lookup_of_mustSeen _ _ inId hmsIn
            · exact lookup_of_mustSeen _ _ outId hmsOut
          · simp at h
      · simp at h
  · exact ⟨rfl, rfl, by decide, rfl, rfl, rfl, rfl, rfl⟩

/-- Witness for C2: the concrete field `A.b` stores exactly the registry's
entity for `.x.B`. -/
theorem cross_reference_identity_witness :
    gEx.Lookup (gEx.fieldDescOf 4).typeName = some 1 ∧
    (gEx.entOf 1).kind = .msg :=
  cross_reference_identity.1 gEx 4 .messageT 1 rfl

/-! ### Frame lemmas: hydration never rewrites pre-existing entities -/

theorem foldl_pres {α : Type} {P : Graph → Prop} {step : Graph → α → Graph}
    (h : ∀ g x, P g → P (step g x)) :
    ∀ (l : List α) (g : Graph), P g → P (l.foldl step g) := by
  intro l
  induction l with
  | nil => intro g hp; exact hp
  | cons x xs ih =>
    intro g hp
    rw [List.foldl_cons]
    exact ih (step g x) (h g x hp)

theorem length_createAdd (g : Graph) (e : Entity) :
    (((g.createEnt e).1).add (g.createEnt e).2).ents.length = g.ents.length + 1 := by
  rw [length_add, length_createEnt]

theorem entOf_createAdd_below (g : Graph) (e : Entity) (i : Nat)
    (h : i < g.ents.length) :
    (((g.createEnt e).1).add (g.createEnt e).2).entOf i = g.entOf i := by
  rw [entOf_add, entOf_createEnt_lt g e i h]

theorem entOf_hydrateEnumValue_below (g : Graph) (eid : Nat)
    (vd : EnumValueDescriptorProto) (i : Nat) (h : i < g.ents.length) :
    (hydrateEnumValue g eid vd).1.entOf i = g.entOf i := by
  unfold hydrateEnumValue
  exact entOf_createAdd_below g _ i h

theorem length_hydrateEnumValue (g : Graph) (eid : Nat)
    (vd : EnumValueDescriptorProto) :
    (hydrateEnumValue g eid vd).1.ents.length = g.ents.length + 1 := by
  unfold hydrateEnumValue
  exact length_createAdd g _

theorem entOf_hydrateOneOf_below (g : Graph) (mid : Nat)
    (od : OneofDescriptorProto) (pfx : String) (i : Nat) (h : i < g.ents.length) :
    (hydrateOneOf g mid pfx od).1.entOf i = g.entOf i := by
  unfold hydrateOneOf
  exact entOf_createAdd_below g _ i h

theorem entOf_hydrateField_below (g : Graph) (mid : Nat) (pfx : String)
    (fd : FieldDescriptorProto) (i : Nat) (h : i < g.ents.length) :
    (hydrateField g mid pfx fd).1.entOf i = g.entOf i := by
  unfold hydrateField
  exact entOf_createAdd_below g _ i h

/-- `hydrateEnum` only allocates and mutates the fresh enum: entities below
the old length are untouched. -/
theorem entOf_hydrateEnum_below (g : Graph) (pid : Nat) (pfx : String)
    (ed : EnumDescriptorProto) (i : Nat) (h : i < g.ents.length) :
    (hydrateEnum g pid pfx ed).1.entOf i = g.entOf i := by
  unfold hydrateEnum
  dsimp only
  have := @foldl_pres EnumValueDescriptorProto
    (fun gg => g.ents.length + 1 ≤ gg.ents.length ∧
      gg.entOf i = g.entOf i)
    (fun gg vd => (hydrateEnumValue gg g.ents.length vd).1.updEnt
      g.ents.length (fun e => { e with vals := e.vals ++
        [(hydrateEnumValue gg g.ents.length vd).2] }))
    ?_ ed.value
    (((g.createEnt (enumEntity pid pfx ed)).1).add
      (g.createEnt (enumEntity pid pfx ed)).2)
    ⟨by rw [length_createAdd], entOf_createAdd_below g _ i h⟩
  · exact this.2
  · intro gg vd hp
    constructor
    · rw [length_updEnt, length_hydrateEnumValue]
      omega
    · rw [entOf_updEnt_ne _ _ _ _ (by omega)]
      rw [entOf_hydrateEnumValue_below gg _ vd i (by omega)]
      exact hp.2

theorem length_hydrateEnum (g : Graph) (pid : Nat) (pfx : String)
    (ed : EnumDescriptorProto) :
    g.ents.length + 1 ≤ (hydrateEnum g pid pfx ed).1.ents.length := by
  unfold hydrateEnum
  dsimp only
  refine (foldl_pres (P := fun gg => g.ents.length + 1 ≤ gg.ents.length)
    ?_ ed.value _ (by show g.ents.length + 1 ≤ _; rw [length_createAdd]))
  intro gg vd hp
  rw [length_updEnt, length_hydrateEnumValue]
  omega

theorem hydrateOneOf_snd (g : Graph) (mid : Nat) (pfx : String)
    (od : OneofDescriptorProto) : (hydrateOneOf g mid pfx od).2 = g.ents.length := rfl

theorem length_hydrateOneOf (g : Graph) (mid : Nat) (pfx : String)
    (od : OneofDescriptorProto) :
    (hydrateOneOf g mid pfx od).1.ents.length = g.ents.length + 1 := by
  unfold hydrateOneOf
  exact length_createAdd g _

theorem length_hydrateField (g : Graph) (mid : Nat) (pfx : String)
    (fd : FieldDescriptorProto) :
    (hydrateField g mid pfx fd).1.ents.length = g.ents.length + 1 := by
  unfold hydrateField
  exact length_createAdd g _

/-- `hydrateFields` leaves every entity other than the message itself and its
one-of groups untouched. -/
theorem frame_hydrateFields (g : Graph) (mid : Nat) (pfx : String)
    (fds : List FieldDescriptorProto) (g' : Graph)
    (h : hydrateFields g mid pfx fds = .ok g') (hmid : mid < g.ents.length) :
    ∀ i, i < g.ents.length → i ≠ mid → i ∉ (g.entOf mid).oneofs →
      g'.entOf i = g.entOf i := by
  induction fds generalizing g with
  | nil =>
    simp only [hydrateFields, pure, Except.pure, Except.ok.injEq] at h
    subst h
    intro i _ _ _
    rfl
  | cons fd rest ih =>
    intro i hlt hne hno
    simp only [hydrateFields] at h
    have hmid1 : mid < ((hydrateField g mid pfx fd).1.updEnt mid
        (fun e => { e with fields := e.fields ++
          [(hydrateField g mid pfx fd).2] })).ents.length := by
      rw [length_updEnt, length_hydrateField]
      omega
    have hOne1 : (((hydrateField g mid pfx fd).1.updEnt mid
        (fun e => { e with fields := e.fields ++
          [(hydrateField g mid pfx fd).2] })).entOf mid).oneofs
        = (g.entOf mid).oneofs := by
      rw [entOf_updEnt_self _ _ _ (by rw [length_hydrateField]; omega)]
      show ((hydrateField g mid pfx fd).1.entOf mid).oneofs = _
      rw [entOf_hydrateField_below g mid pfx fd mid hmid]
    have hI1 : ((hydrateField g mid pfx fd).1.updEnt mid
        (fun e => { e with fields := e.fields ++
          [(hydrateField g mid pfx fd).2] })).entOf i = g.entOf i := by
      rw [entOf_updEnt_ne _ _ _ _ (Ne.symm hne)]
      exact entOf_hydrateField_below g mid pfx fd i hlt
    have hlen1 : g.ents.length ≤ ((hydrateField g mid pfx fd).1.updEnt mid
        (fun e => { e with fields := e.fields ++
          [(hydrateField g mid pfx fd).2] })).ents.length := by
      rw [length_updEnt, length_hydrateField]
      omega
    split at h
    · rw [← hI1]
      exact ih _ h hmid1 i (by omega) hne (by rw [hOne1]; exact hno)
    · split at h
      · cases h
      next oid hoid =>
        have hoidmem : oid ∈ (g.entOf mid).oneofs := by
          rw [← hOne1]
          exact List.get?_mem hoid
        have hneo : i ≠ oid := fun hc => hno (hc ▸ hoidmem)
        have hmid2 : mid < (((hydrateField g mid pfx fd).1.updEnt mid
            (fun e => { e with fields := e.fields ++
              [(hydrateField g mid pfx fd).2] })).updEnt oid
              (fun e => { e with fields := e.fields ++
                [(hydrateField g mid pfx fd).2] })).ents.length := by
          rw [length_updEnt]
          exact hmid1
        have hOne2 : ((((hydrateField g mid pfx fd).1.updEnt mid
            (fun e => { e with fields := e.fields ++
              [(hydrateField g mid pfx fd).2] })).updEnt oid
              (fun e => { e with fields := e.fields ++
                [(hydrateField g mid pfx fd).2] })).entOf mid).oneofs
            = (g.entOf mid).oneofs := by
          by_cases hom : oid = mid
          · rw [hom, entOf_updEnt_self _ _ _ hmid1]
            exact hOne1
          · rw [entOf_updEnt_ne _ _ _ _ hom]
            exact hOne1
        have hI2 : (((hydrateField g mid pfx fd).1.updEnt mid
            (fun e => { e with fields := e.fields ++
              [(hydrateField g mid pfx fd).2] })).updEnt oid
              (fun e => { e with fields := e.fields ++
                [(hydrateField g mid pfx fd).2] })).entOf i = g.entOf i := by
          rw [entOf_updEnt_ne _ _ _ _ (Ne.symm hneo)]
          exact hI1
        rw [← hI2]
        refine ih _ h hmid2 i ?_ hne (by rw [hOne2]; exact hno)
        rw [length_updEnt]
        omega

mutual

/-- `hydrateMessage` mutates only freshly allocated entities: every entity
that existed before the call is untouched. -/
theorem frame_hydrateMessage (g : Graph) (pid : Nat) (pfx : String)
    (md : DescriptorProto) (g' : Graph) (mid : Nat)
    (h : hydrateMessage g pid pfx md = .ok (g', mid)) :
    ∀ i, i < g.ents.length → g'.entOf i = g.entOf i := by
  match md with
  | .mk name fieldDescs nested enumDescs oneofDescs isME =>
    intro i hi
    simp only [hydrateMessage, bind, Except.bind] at h
    split at h
    · simp at h
    next g3 hnest =>
      split at h
      · simp at h
      next g4 hflds =>
        simp only [pure, Except.pure, Except.ok.injEq, Prod.mk.injEq] at h
        obtain ⟨hg, hm⟩ := h
        subst hg
        subst hm
        -- the enum fold keeps old entities, the fresh message's one-of list
        -- empty, and the length above `g.ents.length + 1`
        have hmid0 : (g.createEnt (msgEntity pid pfx name isME)).2
            = g.ents.length := rfl
        have hfold := @foldl_pres EnumDescriptorProto
          (fun gg => g.ents.length + 1 ≤ gg.ents.length ∧
            gg.entOf i = g.entOf i ∧
            (gg.entOf (g.createEnt (msgEntity pid pfx name isME)).2).oneofs = [])
          (fun gg ed => (hydrateEnum gg
            (g.createEnt (msgEntity pid pfx name isME)).2 (pfx ++ "." ++ name) ed).1.updEnt
              (g.createEnt (msgEntity pid pfx name isME)).2
              (fun e => { e with enums := e.enums ++ [(hydrateEnum gg
                (g.createEnt (msgEntity pid pfx name isME)).2
                (pfx ++ "." ++ name) ed).2] }))
          (by
            rintro gg ed ⟨hl, hei, ho⟩
            refine ⟨?_, ?_, ?_⟩
            · rw [length_updEnt]
              have := length_hydrateEnum gg
                (g.createEnt (msgEntity pid pfx name isME)).2 (pfx ++ "." ++ name) ed
              omega
            · rw [entOf_updEnt_ne _ _ _ _
                (show (g.createEnt (msgEntity pid pfx name isME)).2 ≠ i from by
                  omega)]
              rw [entOf_hydrateEnum_below gg
                (g.createEnt (msgEntity pid pfx name isME)).2 (pfx ++ "." ++ name)
                ed i (by omega)]
              exact hei
            · rw [entOf_updEnt_self _ _ _ (by
                have := length_hydrateEnum gg
                  (g.createEnt (msgEntity pid pfx name isME)).2 (pfx ++ "." ++ name) ed
                omega)]
              rw [entOf_hydrateEnum_below gg
                (g.createEnt (msgEntity pid pfx name isME)).2 (pfx ++ "." ++ name)
                ed (g.createEnt (msgEntity pid pfx name isME)).2 (by omega)]
              exact ho)
          enumDescs
          (((g.createEnt (msgEntity pid pfx name isME)).1).add
            (g.createEnt (msgEntity pid pfx name isME)).2)
          ⟨by rw [length_createAdd], entOf_createAdd_below g _ i hi, by
            rw [hmid0, entOf_add, entOf_createEnt_self]; rfl⟩
        obtain ⟨hlB, heiB, hoB⟩ := hfold
        -- nested messages: recursive frame
        have hnf := frame_hydrateNested _ _ _ nested g3 hnest (by omega)
        have heiN : g3.entOf i = g.entOf i := by
          rw [hnf.1 i (by omega) (by omega)]
          exact heiB
        have hoN : (g3.entOf (g.createEnt (msgEntity pid pfx name isME)).2).oneofs
            = [] := by
          rw [hnf.2]
          exact hoB
        have hlN : g.ents.length + 1 ≤ g3.ents.length := by
          have := (sound_hydrateNested _ _ _ nested g3 hnest).1
          omega
        -- the one-of fold: old entities kept, all one-of ids fresh
        have hofold := @foldl_pres OneofDescriptorProto
          (fun gg => g.ents.length + 1 ≤ gg.ents.length ∧
            gg.entOf i = g.entOf i ∧
            (∀ j ∈ (gg.entOf (g.createEnt (msgEntity pid pfx name isME)).2).oneofs,
              g.ents.length ≤ j))
          (fun gg od => (hydrateOneOf gg
            (g.createEnt (msgEntity pid pfx name isME)).2 (pfx ++ "." ++ name) od).1.updEnt
              (g.createEnt (msgEntity pid pfx name isME)).2
              (fun e => { e with oneofs := e.oneofs ++ [(hydrateOneOf gg
                (g.createEnt (msgEntity pid pfx name isME)).2
                (pfx ++ "." ++ name) od).2] }))
          (by
            rintro gg od ⟨hl, hei, ho⟩
            refine ⟨?_, ?_, ?_⟩
            · rw [length_updEnt, length_hydrateOneOf]
              omega
            · rw [entOf_updEnt_ne _ _ _ _
                (show (g.createEnt (msgEntity pid pfx name isME)).2 ≠ i from by
                  omega)]
              rw [entOf_hydrateOneOf_below gg
                (g.createEnt (msgEntity pid pfx name isME)).2 od (pfx ++ "." ++ name)
                i (by omega)]
              exact hei
            · rw [entOf_updEnt_self _ _ _ (by
                rw [length_hydrateOneOf]; omega)]
              intro j hj
              simp only [List.mem_append, List.mem_singleton] at hj
              rcases hj with hj | rfl
              · rw [entOf_hydrateOneOf_below gg
                  (g.createEnt (msgEntity pid pfx name isME)).2 od (pfx ++ "." ++ name)
                  (g.createEnt (msgEntity pid pfx name isME)).2 (by omega)] at hj
                exact ho j hj
              · rw [hydrateOneOf_snd]
                omega)
          oneofDescs g3
          ⟨hlN, heiN, by rw [hoN]; intro j hj; cases hj⟩
        obtain ⟨hlO, heiO, hoO⟩ := hofold
        -- the fields: frame via frame_hydrateFields
        rw [← heiO]
        refine frame_hydrateFields _ _ _ fieldDescs g4 hflds (by omega)
          i (by omega) (by omega) ?_
        intro hmem
        have := hoO i hmem
        omega

/-- `hydrateNested` mutates only freshly allocated entities and the three
nested-message lists of its parent. -/
theorem frame_hydrateNested (g : Graph) (mid0 : Nat) (pfx : String)
    (mds : List DescriptorProto) (g' : Graph)
    (h : hydrateNested g mid0 pfx mds = .ok g') (hmid : mid0 < g.ents.length) :
    (∀ i, i < g.ents.length → i ≠ mid0 → g'.entOf i = g.entOf i) ∧
    (g'.entOf mid0 = { g.entOf mid0 with
      msgs := (g'.entOf mid0).msgs, mapEntries := (g'.entOf mid0).mapEntries,
      preservedMsgs := (g'.entOf mid0).preservedMsgs }) := by
  match mds with
  | [] =>
    simp only [hydrateNested, pure, Except.pure, Except.ok.injEq] at h
    subst h
    exact ⟨fun i _ _ => rfl, rfl⟩
  | nmd :: rest =>
    simp only [hydrateNested, bind, Except.bind] at h
    split at h
    · simp at h
    next p hmsg =>
      have hfm := frame_hydrateMessage g mid0 pfx nmd p.1 p.2 (by rw [hmsg])
      have hlenp : g.ents.length ≤ p.1.ents.length :=
        (sound_hydrateMessage g mid0 pfx nmd p.1 p.2 (by rw [hmsg])).1
      by_cases hflag : (p.1.entOf p.2).isMapEntry = true
      · rw [if_pos hflag] at h
        have hrec := frame_hydrateNested _ _ _ rest g' h (by
          rw [length_updEnt, length_updEnt]
          omega)
        constructor
        · intro i hi hne
          rw [hrec.1 i (by rw [length_updEnt, length_updEnt]; omega) hne]
          rw [entOf_updEnt_ne _ _ _ _ (Ne.symm hne),
            entOf_updEnt_ne _ _ _ _ (Ne.symm hne)]
          exact hfm i hi
        · have hmidp : mid0 < p.1.ents.length := by omega
          have hg2 : (((p.1.updEnt mid0 (fun e => { e with mapEntries :=
              e.mapEntries ++ [p.2] })).updEnt mid0 (fun e => { e with
                preservedMsgs := e.preservedMsgs ++ [p.2] })).entOf mid0)
              = { g.entOf mid0 with
                  mapEntries := (p.1.entOf mid0).mapEntries ++ [p.2],
                  preservedMsgs := (p.1.entOf mid0).preservedMsgs ++ [p.2] } := by
            rw [entOf_updEnt_self _ _ _ (by rw [length_updEnt]; omega)]
            rw [entOf_updEnt_self _ _ _ hmidp]
            rw [hfm mid0 hmid]
          rw [hrec.2, hg2]
      · rw [if_neg hflag] at h
        have hrec := frame_hydrateNested _ _ _ rest g' h (by
          rw [length_updEnt, length_updEnt]
          omega)
        constructor
        · intro i hi hne
          rw [hrec.1 i (by rw [length_updEnt, length_updEnt]; omega) hne]
          rw [entOf_updEnt_ne _ _ _ _ (Ne.symm hne),
            entOf_updEnt_ne _ _ _ _ (Ne.symm hne)]
          exact hfm i hi
        · have hmidp : mid0 < p.1.ents.length := by omega
          have hg2 : (((p.1.updEnt mid0 (fun e => { e with msgs :=
              e.msgs ++ [p.2] })).updEnt mid0 (fun e => { e with
                preservedMsgs := e.preservedMsgs ++ [p.2] })).entOf mid0)
              = { g.entOf mid0 with
                  msgs := (p.1.entOf mid0).msgs ++ [p.2],
                  preservedMsgs := (p.1.entOf mid0).preservedMsgs ++ [p.2] } := by
            rw [entOf_updEnt_self _ _ _ (by rw [length_updEnt]; omega)]
            rw [entOf_updEnt_self _ _ _ hmidp]
            rw [hfm mid0 hmid]
          rw [hrec.2, hg2]

end

/-! ### Map-entry split of nested messages -/

/-- A mutator that does not change the nested-message lists or the map-entry
flag keeps them at every index. -/
theorem pml_updEnt (g : Graph) (j : Nat) (f : Entity → Entity)
    (hf : ∀ e, (f e).msgs = e.msgs ∧ (f e).mapEntries = e.mapEntries ∧
      (f e).preservedMsgs = e.preservedMsgs ∧ (f e).isMapEntry = e.isMapEntry)
    (i : Nat) :
    ((g.updEnt j f).entOf i).msgs = (g.entOf i).msgs ∧
    ((g.updEnt j f).entOf i).mapEntries = (g.entOf i).mapEntries ∧
    ((g.updEnt j f).entOf i).preservedMsgs = (g.entOf i).preservedMsgs ∧
    ((g.updEnt j f).entOf i).isMapEntry = (g.entOf i).isMapEntry := by
  by_cases hji : j = i
  · subst hji
    rw [entOf_updEnt_self']
    by_cases hl : j < g.ents.length
    · rw [if_pos hl]
      exact hf _
    · rw [if_neg hl]
      exact ⟨rfl, rfl, rfl, rfl⟩
  · rw [entOf_updEnt_ne _ _ _ _ hji]
    exact ⟨rfl, rfl, rfl, rfl⟩

/-- `hydrateFields` does not change any entity's nested-message lists or
map-entry flag. -/
theorem pml_hydrateFields (g : Graph) (mid : Nat) (pfx : String)
    (fds : List FieldDescriptorProto) (g' : Graph)
    (h : hydrateFields g mid pfx fds = .ok g') :
    ∀ i, i < g.ents.length →
      (g'.entOf i).msgs = (g.entOf i).msgs ∧
      (g'.entOf i).mapEntries = (g.entOf i).mapEntries ∧
      (g'.entOf i).preservedMsgs = (g.entOf i).preservedMsgs ∧
      (g'.entOf i).isMapEntry = (g.entOf i).isMapEntry := by
  induction fds generalizing g with
  | nil =>
    simp only [hydrateFields, pure, Except.pure, Except.ok.injEq] at h
    subst h
    intro i _
    exact ⟨rfl, rfl, rfl, rfl⟩
  | cons fd rest ih =>
    intro i hi
    simp only [hydrateFields] at h
    have h1 := pml_updEnt (hydrateField g mid pfx fd).1 mid
      (fun e => { e with fields := e.fields ++ [(hydrateField g mid pfx fd).2] })
      (fun e => ⟨rfl, rfl, rfl, rfl⟩) i
    have h0 : (hydrateField g mid pfx fd).1.entOf i = g.entOf i :=
      entOf_hydrateField_below g mid pfx fd i hi
    have hlen1 : i < ((hydrateField g mid pfx fd).1.updEnt mid
        (fun e => { e with fields := e.fields ++
          [(hydrateField g mid pfx fd).2] })).ents.length := by
      rw [length_updEnt, length_hydrateField]
      omega
    split at h
    · have := ih _ h i hlen1
      rw [h0] at h1
      exact ⟨(this.1).trans h1.1, (this.2.1).trans h1.2.1,
        (this.2.2.1).trans h1.2.2.1, (this.2.2.2).trans h1.2.2.2⟩
    · split at h
      · cases h
      next oid hoid =>
        have h2 := pml_updEnt (((hydrateField g mid pfx fd).1.updEnt mid
          (fun e => { e with fields := e.fields ++
            [(hydrateField g mid pfx fd).2] }))) oid
          (fun e => { e with fields := e.fields ++ [(hydrateField g mid pfx fd).2] })
          (fun e => ⟨rfl, rfl, rfl, rfl⟩) i
        have := ih _ h i (by rw [length_updEnt]; exact hlen1)
        rw [h0] at h1
        exact ⟨(this.1).trans ((h2.1).trans h1.1),
          (this.2.1).trans ((h2.2.1).trans h1.2.1),
          (this.2.2.1).trans ((h2.2.2.1).trans h1.2.2.1),
          (this.2.2.2).trans ((h2.2.2.2).trans h1.2.2.2)⟩

theorem sound_oneofFoldStep (mid : Nat) (pfx : String) (g : Graph)
    (od : OneofDescriptorProto) :
    Sound g ((hydrateOneOf g mid pfx od).1.updEnt mid fun e =>
      { e with oneofs := e.oneofs ++ [(hydrateOneOf g mid pfx od).2] }) :=
  sound_trans (sound_hydrateOneOf g mid pfx od)
    (sound_updEnt _ _ _ (fun e => by simp [EntStable]))

/-- What `hydrateMessage` records on the fresh message entity itself. -/
theorem hydrateMessage_spec (g : Graph) (pid : Nat) (pfx : String)
    (md : DescriptorProto) (g' : Graph) (mid : Nat)
    (h : hydrateMessage g pid pfx md = .ok (g', mid)) :
    mid = g.ents.length ∧ mid < g'.ents.length ∧
    (g'.entOf mid).isMapEntry = md.mapEntry ∧ (g'.entOf mid).kind = .msg ∧
    (g'.entOf mid).name = md.name ∧ (g'.entOf mid).fqn = pfx ++ "." ++ md.name := by
  match md with
  | .mk name fieldDescs nested enumDescs oneofDescs isME =>
    simp only [hydrateMessage, bind, Except.bind] at h
    split at h
    · simp at h
    next g3 hnest =>
      split at h
      · simp at h
      next g4 hflds =>
        simp only [pure, Except.pure, Except.ok.injEq, Prod.mk.injEq] at h
        obtain ⟨hg, hm⟩ := h
        subst hg
        subst hm
        have hmid0 : (g.createEnt (msgEntity pid pfx name isME)).2
            = g.ents.length := rfl
        have s1 := sound_foldl
          (sound_enumFoldStep (g.createEnt (msgEntity pid pfx name isME)).2
            (pfx ++ "." ++ name)) enumDescs
          (((g.createEnt (msgEntity pid pfx name isME)).1).add
            (g.createEnt (msgEntity pid pfx name isME)).2)
        have s2 := sound_hydrateNested _ _ _ nested g3 hnest
        have s3 := sound_foldl
          (sound_oneofFoldStep (g.createEnt (msgEntity pid pfx name isME)).2
            (pfx ++ "." ++ name)) oneofDescs g3
        have s4 := sound_hydrateFields _ _ _ fieldDescs g4 hflds
        have sAll := sound_trans s1 (sound_trans s2 (sound_trans s3 s4))
        have hstab := sAll.2.1 (g.createEnt (msgEntity pid pfx name isME)).2
          (by rw [length_createAdd, hmid0]; omega)
        have hself : (((g.createEnt (msgEntity pid pfx name isME)).1).add
            (g.createEnt (msgEntity pid pfx name isME)).2).entOf
              (g.createEnt (msgEntity pid pfx name isME)).2
            = msgEntity pid pfx name isME := by
          rw [entOf_add, hmid0, entOf_createEnt_self]
        rw [hself] at hstab
        refine ⟨hmid0, ?_, ?_, ?_, ?_, ?_⟩
        · have := sAll.1
          rw [length_createAdd] at this
          omega
        · exact hstab.2.2.2.2.1.trans rfl
        · exact hstab.1.trans rfl
        · exact hstab.2.1.trans rfl
        · exact hstab.2.2.1.trans rfl

/-- The nested-message loop appends exactly the fresh child ids: all of them
to `preservedMsgs`, the non-map-entries to `msgs` and the map entries to
`mapEntries`, flags read in the final graph. -/
theorem hydrateNested_split (mds : List DescriptorProto) :
    ∀ (g : Graph) (mid0 : Nat) (pfx : String) (g' : Graph),
      hydrateNested g mid0 pfx mds = .ok g' → mid0 < g.ents.length →
      ∃ new : List Nat,
        (∀ j ∈ new, g.ents.length ≤ j ∧ j < g'.ents.length) ∧
        (g'.entOf mid0).preservedMsgs = (g.entOf mid0).preservedMsgs ++ new ∧
        (g'.entOf mid0).msgs = (g.entOf mid0).msgs ++
          new.filter (fun j => !(g'.entOf j).isMapEntry) ∧
        (g'.entOf mid0).mapEntries = (g.entOf mid0).mapEntries ++
          new.filter (fun j => (g'.entOf j).isMapEntry) := by
  induction mds with
  | nil =>
    intro g mid0 pfx g' h hmid
    simp only [hydrateNested, pure, Except.pure, Except.ok.injEq] at h
    subst h
    exact ⟨[], by simp, by simp, by simp, by simp⟩
  | cons nmd rest ih =>
    intro g mid0 pfx g' h hmid
    simp only [hydrateNested, bind, Except.bind] at h
    split at h
    · simp at h
    next p hmsg =>
      have hfm := frame_hydrateMessage g mid0 pfx nmd p.1 p.2 (by rw [hmsg])
      have hmspec := hydrateMessage_spec g mid0 pfx nmd p.1 p.2 (by rw [hmsg])
      have hnid : p.2 = g.ents.length := hmspec.1
      have hnidlt : p.2 < p.1.ents.length := hmspec.2.1
      have hne : p.2 ≠ mid0 := by omega
      by_cases hflag : (p.1.entOf p.2).isMapEntry = true
      · rw [if_pos hflag] at h
        have hs := sound_hydrateNested _ _ _ rest g' h
        have hlen2 : ((p.1.updEnt mid0 (fun e => { e with mapEntries :=
            e.mapEntries ++ [p.2] })).updEnt mid0 (fun e => { e with
              preservedMsgs := e.preservedMsgs ++ [p.2] })).ents.length
            = p.1.ents.length := by
          rw [length_updEnt, length_updEnt]
        obtain ⟨new2, hb2, hp2, hm2, he2⟩ := ih _ mid0 pfx g' h
          (by rw [hlen2]; omega)
        have hg2 : ((p.1.updEnt mid0 (fun e => { e with mapEntries :=
            e.mapEntries ++ [p.2] })).updEnt mid0 (fun e => { e with
              preservedMsgs := e.preservedMsgs ++ [p.2] })).entOf mid0
            = { g.entOf mid0 with
                mapEntries := (g.entOf mid0).mapEntries ++ [p.2],
                preservedMsgs := (g.entOf mid0).preservedMsgs ++ [p.2] } := by
          rw [entOf_updEnt_self _ _ _ (by rw [length_updEnt]; omega),
            entOf_updEnt_self _ _ _ (by omega), hfm mid0 hmid]
        have hflag' : (g'.entOf p.2).isMapEntry = true := by
          have := (hs.2.1 p.2 (by rw [hlen2]; omega)).2.2.2.2.1
          rw [this, entOf_updEnt_ne _ _ _ _ (Ne.symm hne),
            entOf_updEnt_ne _ _ _ _ (Ne.symm hne)]
          exact hflag
        refine ⟨p.2 :: new2, ?_, ?_, ?_, ?_⟩
        · intro j hj
          rcases List.mem_cons.mp hj with hj | hj
          · subst hj
            have := hs.1
            rw [hlen2] at this
            omega
          · have := hb2 j hj
            rw [hlen2] at this
            omega
        · rw [hp2, hg2]
          simp
        · rw [hm2, hg2, List.filter_cons]
          simp [hflag']
        · rw [he2, hg2, List.filter_cons]
          simp [hflag']
      · rw [if_neg hflag] at h
        have hs := sound_hydrateNested _ _ _ rest g' h
        have hlen2 : ((p.1.updEnt mid0 (fun e => { e with msgs :=
            e.msgs ++ [p.2] })).updEnt mid0 (fun e => { e with
              preservedMsgs := e.preservedMsgs ++ [p.2] })).ents.length
            = p.1.ents.length := by
          rw [length_updEnt, length_updEnt]
        obtain ⟨new2, hb2, hp2, hm2, he2⟩ := ih _ mid0 pfx g' h
          (by rw [hlen2]; omega)
        have hg2 : ((p.1.updEnt mid0 (fun e => { e with msgs :=
            e.msgs ++ [p.2] })).updEnt mid0 (fun e => { e with
              preservedMsgs := e.preservedMsgs ++ [p.2] })).entOf mid0
            = { g.entOf mid0 with
                msgs := (g.entOf mid0).msgs ++ [p.2],
                preservedMsgs := (g.entOf mid0).preservedMsgs ++ [p.2] } := by
          rw [entOf_updEnt_self _ _ _ (by rw [length_updEnt]; omega),
            entOf_updEnt_self _ _ _ (by omega), hfm mid0 hmid]
        have hflag' : (g'.entOf p.2).isMapEntry = false := by
          have := (hs.2.1 p.2 (by rw [hlen2]; omega)).2.2.2.2.1
          rw [this, entOf_updEnt_ne _ _ _ _ (Ne.symm hne),
            entOf_updEnt_ne _ _ _ _ (Ne.symm hne)]
          exact Bool.not_eq_true _ ▸ eq_false_of_ne_true hflag
        refine ⟨p.2 :: new2, ?_, ?_, ?_, ?_⟩
        · intro j hj
          rcases List.mem_cons.mp hj with hj | hj
          · subst hj
            have := hs.1
            rw [hlen2] at this
            omega
          · have := hb2 j hj
            rw [hlen2] at this
            omega
        · rw [hp2, hg2]
          simp
        · rw [hm2, hg2, List.filter_cons]
          simp [hflag']
        · rw [he2, hg2, List.filter_cons]
          simp [hflag']

/-- At the end of `hydrateMessage` the fresh message's `msgs` list holds only
non-map-entry children, `mapEntries` only map-entry children, and every
preserved child is filed on the side matching its flag. -/
theorem hydrateMessage_split (g : Graph) (pid : Nat) (pfx : String)
    (md : DescriptorProto) (g' : Graph) (mid : Nat)
    (h : hydrateMessage g pid pfx md = .ok (g', mid)) :
    (∀ j ∈ (g'.entOf mid).msgs, (g'.entOf j).isMapEntry = false) ∧
    (∀ j ∈ (g'.entOf mid).mapEntries, (g'.entOf j).isMapEntry = true) ∧
    (∀ j ∈ (g'.entOf mid).preservedMsgs,
      ((g'.entOf j).isMapEntry = true → j ∈ (g'.entOf mid).mapEntries) ∧
      ((g'.entOf j).isMapEntry = false → j ∈ (g'.entOf mid).msgs)) := by
  match md with
  | .mk name fieldDescs nested enumDescs oneofDescs isME =>
    simp only [hydrateMessage, bind, Except.bind] at h
    split at h
    · simp at h
    next g3 hnest =>
      split at h
      · simp at h
      next g4 hflds =>
        simp only [pure, Except.pure, Except.ok.injEq, Prod.mk.injEq] at h
        obtain ⟨hg, hm⟩ := h
        subst hg
        subst hm
        have hmid0 : (g.createEnt (msgEntity pid pfx name isME)).2
            = g.ents.length := rfl
        -- after the enum fold the fresh message's nested-message lists are empty
        have hB := @foldl_pres EnumDescriptorProto
          (fun gg =>
            (gg.entOf (g.createEnt (msgEntity pid pfx name isME)).2).msgs = [] ∧
            (gg.entOf (g.createEnt (msgEntity pid pfx name isME)).2).mapEntries = [] ∧
            (gg.entOf (g.createEnt (msgEntity pid pfx name isME)).2).preservedMsgs = [] ∧
            g.ents.length + 1 ≤ gg.ents.length)
          (fun gg ed => (hydrateEnum gg
            (g.createEnt (msgEntity pid pfx name isME)).2 (pfx ++ "." ++ name) ed).1.updEnt
              (g.createEnt (msgEntity pid pfx name isME)).2
              (fun e => { e with enums := e.enums ++ [(hydrateEnum gg
                (g.createEnt (msgEntity pid pfx name isME)).2
                (pfx ++ "." ++ name) ed).2] }))
          (by
            rintro gg ed ⟨h1, h2, h3, h4⟩
            have hlE := length_hydrateEnum gg
              (g.createEnt (msgEntity pid pfx name isME)).2 (pfx ++ "." ++ name) ed
            have hEb := entOf_hydrateEnum_below gg
              (g.createEnt (msgEntity pid pfx name isME)).2 (pfx ++ "." ++ name)
              ed (g.createEnt (msgEntity pid pfx name isME)).2 (by omega)
            have hU := pml_updEnt (hydrateEnum gg
              (g.createEnt (msgEntity pid pfx name isME)).2 (pfx ++ "." ++ name) ed).1
              (g.createEnt (msgEntity pid pfx name isME)).2
              (fun e => { e with enums := e.enums ++ [(hydrateEnum gg
                (g.createEnt (msgEntity pid pfx name isME)).2
                (pfx ++ "." ++ name) ed).2] })
              (fun e => ⟨rfl, rfl, rfl, rfl⟩)
              (g.createEnt (msgEntity pid pfx name isME)).2
            rw [hEb] at hU
            refine ⟨hU.1.trans h1, hU.2.1.trans h2, hU.2.2.1.trans h3, ?_⟩
            rw [length_updEnt]
            omega)
          enumDescs
          (((g.createEnt (msgEntity pid pfx name isME)).1).add
            (g.createEnt (msgEntity pid pfx name isME)).2)
          ⟨by rw [hmid0, entOf_add, entOf_createEnt_self]; rfl,
           by rw [hmid0, entOf_add, entOf_createEnt_self]; rfl,
           by rw [hmid0, entOf_add, entOf_createEnt_self]; rfl,
           by rw [length_createAdd]⟩
        have hB1 := hB.1
        have hB2 := hB.2.1
        have hB3 := hB.2.2.1
        have hB4 := hB.2.2.2
        have hlN := (sound_hydrateNested _ _ _ nested g3 hnest).1
        obtain ⟨new, hbnd, hpres, hmsgs, hments⟩ :=
          hydrateNested_split nested _
            (g.createEnt (msgEntity pid pfx name isME)).2 (pfx ++ "." ++ name)
            g3 hnest (by omega)
        -- the one-of fold keeps the message's nested-message lists
        have hC := @foldl_pres OneofDescriptorProto
          (fun gg =>
            (gg.entOf (g.createEnt (msgEntity pid pfx name isME)).2).msgs
              = (g3.entOf (g.createEnt (msgEntity pid pfx name isME)).2).msgs ∧
            (gg.entOf (g.createEnt (msgEntity pid pfx name isME)).2).mapEntries
              = (g3.entOf (g.createEnt (msgEntity pid pfx name isME)).2).mapEntries ∧
            (gg.entOf (g.createEnt (msgEntity pid pfx name isME)).2).preservedMsgs
              = (g3.entOf (g.createEnt (msgEntity pid pfx name isME)).2).preservedMsgs ∧
            (g.createEnt (msgEntity pid pfx name isME)).2 < gg.ents.length)
          (fun gg od => (hydrateOneOf gg
            (g.createEnt (msgEntity pid pfx name isME)).2 (pfx ++ "." ++ name) od).1.updEnt
              (g.createEnt (msgEntity pid pfx name isME)).2
              (fun e => { e with oneofs := e.oneofs ++ [(hydrateOneOf gg
                (g.createEnt (msgEntity pid pfx name isME)).2
                (pfx ++ "." ++ name) od).2] }))
          (by
            rintro gg od ⟨h1, h2, h3, h4⟩
            have hOb := entOf_hydrateOneOf_below gg
              (g.createEnt (msgEntity pid pfx name isME)).2 od (pfx ++ "." ++ name)
              (g.createEnt (msgEntity pid pfx name isME)).2 h4
            have hU := pml_updEnt (hydrateOneOf gg
              (g.createEnt (msgEntity pid pfx name isME)).2 (pfx ++ "." ++ name) od).1
              (g.createEnt (msgEntity pid pfx name isME)).2
              (fun e => { e with oneofs := e.oneofs ++ [(hydrateOneOf gg
                (g.createEnt (msgEntity pid pfx name isME)).2
                (pfx ++ "." ++ name) od).2] })
              (fun e => ⟨rfl, rfl, rfl, rfl⟩)
              (g.createEnt (msgEntity pid pfx name isME)).2
            rw [hOb] at hU
            refine ⟨hU.1.trans h1, hU.2.1.trans h2, hU.2.2.1.trans h3, ?_⟩
            rw [length_updEnt, length_hydrateOneOf]
            omega)
          oneofDescs g3 ⟨rfl, rfl, rfl, by omega⟩
        have hC4 := hC.2.2.2
        have hF := pml_hydrateFields _ _ _ fieldDescs g4 hflds
          (g.createEnt (msgEntity pid pfx name isME)).2 hC4
        have hM4 := hF.1.trans hC.1
        have hE4 := hF.2.1.trans hC.2.1
        have hP4 := hF.2.2.1.trans hC.2.2.1
        have s3 := sound_foldl
          (sound_oneofFoldStep (g.createEnt (msgEntity pid pfx name isME)).2
            (pfx ++ "." ++ name)) oneofDescs g3
        have s4 := sound_hydrateFields _ _ _ fieldDescs g4 hflds
        have sTail := sound_trans s3 s4
        have hflagEq : ∀ j, j < g3.ents.length →
            (g4.entOf j).isMapEntry = (g3.entOf j).isMapEntry :=
          fun j hj => (sTail.2.1 j hj).2.2.2.2.1
        refine ⟨?_, ?_, ?_⟩
        · intro j hj
          rw [hM4, hmsgs, hB1] at hj
          simp only [List.nil_append] at hj
          obtain ⟨hjn, hjf⟩ := List.mem_filter.mp hj
          have hflag3 : (g3.entOf j).isMapEntry = false := by simpa using hjf
          rw [hflagEq j (hbnd j hjn).2]
          exact hflag3
        · intro j hj
          rw [hE4, hments, hB2] at hj
          simp only [List.nil_append] at hj
          obtain ⟨hjn, hjf⟩ := List.mem_filter.mp hj
          have hflag3 : (g3.entOf j).isMapEntry = true := by simpa using hjf
          rw [hflagEq j (hbnd j hjn).2]
          exact hflag3
        · intro j hj
          rw [hP4, hpres, hB3] at hj
          simp only [List.nil_append] at hj
          constructor
          · intro hme4
            have hme3 : (g3.entOf j).isMapEntry = true := by
              rw [← hflagEq j (hbnd j hj).2]
              exact hme4
            rw [hE4, hments, hB2]
            simp only [List.nil_append]
            exact List.mem_filter.mpr ⟨hj, hme3⟩
          · intro hme4
            have hme3 : (g3.entOf j).isMapEntry = false := by
              rw [← hflagEq j (hbnd j hj).2]
              exact hme4
            rw [hM4, hmsgs, hB1]
            simp only [List.nil_append]
            exact List.mem_filter.mpr ⟨hj, by simp [hme3]⟩

/-- `hydrateMapFieldType` succeeds whenever the entry message has its two
fields and both already carry a hydrated type, returning the key element from
the first field and the value element from the second. -/
theorem hydrateMapFieldType_ok (g : Graph) (fid m k v : Nat) (kt vt : FieldType)
    (hk0 : (g.entOf m).fields.get? 0 = some k)
    (hv1 : (g.entOf m).fields.get? 1 = some v)
    (hkt : (g.entOf k).ftype = some kt)
    (hvt : (g.entOf v).ftype = some vt) :
    hydrateMapFieldType g fid m
      = .ok (.map (g.fieldDescOf fid).type kt.toElem vt.toElem) := by
  simp only [hydrateMapFieldType, hk0, hv1, hkt, hvt]

/-- The synthetic map-entry message `TagsEntry { string key; int32 value }`. -/
def entryKVEx : DescriptorProto := .mk "TagsEntry"
  [ { name := "key", number := 1, label := .optionalL, type := .stringT,
      typeName := "", oneofIndex := none },
    { name := "value", number := 2, label := .optionalL, type := .int32T,
      typeName := "", oneofIndex := none } ]
  [] [] [] true

/-- `repeated .y.M.TagsEntry tags`: the surface form of a proto3 map field. -/
def fldTagsEx : FieldDescriptorProto :=
  { name := "tags", number := 1, label := .repeatedL, type := .messageT,
    typeName := ".y.M.TagsEntry", oneofIndex := none }

def msgMEx : DescriptorProto := .mk "M" [fldTagsEx] [entryKVEx] [] [] false

def fileMEx : FileDescriptorProto :=
  { name := "m.proto", package := "y", messageType := [msgMEx], enumType := [],
    service := [], location := [] }

def reqMapEx : CodeGeneratorRequest :=
  { fileToGenerate := [], protoFile := [fileMEx] }

def gMapEx : Graph := runGraph reqMapEx

/-- `hydrateMessage` on the map-carrying message, run from a fresh table. -/
def mapMsgRes : Graph × Nat :=
  match hydrateMessage default 0 ".y" msgMEx with
  | .ok p => p
  | .error _ => default

/-- C3.  Map shape: a repeated field whose registry-resolved element message
is flagged map-entry classifies as a `Map` FieldType whose key element derives
from the entry message's first field and whose value element derives from its
second field; and `hydrateMessage` never files a map-entry child in the
parent's ordinary `msgs` list — only in the separate `mapEntries` list, while
`msgs` holds only non-map-entry children. -/
theorem map_shape :
    (∀ (g : Graph) (fid m k v : Nat) (kt vt : FieldType),
      (g.fieldDescOf fid).label = .repeatedL →
      (g.fieldDescOf fid).type = .messageT →
      g.Lookup (g.fieldDescOf fid).typeName = some m →
      (g.entOf m).kind = .msg →
      (g.entOf m).isMapEntry = true →
      (g.entOf m).fields.get? 0 = some k →
      (g.entOf m).fields.get? 1 = some v →
      (g.entOf k).ftype = some kt →
      (g.entOf v).ftype = some vt →
      hydrateFieldType g fid
        = .ok (.map (g.fieldDescOf fid).type kt.toElem vt.toElem)) ∧
    (∀ (g : Graph) (pid : Nat) (pfx : String) (md : DescriptorProto)
        (g' : Graph) (mid : Nat),
      hydrateMessage g pid pfx md = .ok (g', mid) →
      (∀ j ∈ (g'.entOf mid).msgs, (g'.entOf j).isMapEntry = false) ∧
      (∀ j ∈ (g'.entOf mid).mapEntries, (g'.entOf j).isMapEntry = true) ∧
      (∀ j ∈ (g'.entOf mid).preservedMsgs,
        ((g'.entOf j).isMapEntry = true → j ∈ (g'.entOf mid).mapEntries) ∧
        ((g'.entOf j).isMapEntry = false → j ∈ (g'.entOf mid).msgs))) := by
  constructor
  · intro g fid m k v kt vt hrep hmsgT hlk hkind hflag hk0 hv1 hkt hvt
    have hng : (g.fieldDescOf fid).type ≠ .groupT := by
      rw [hmsgT]
      intro hc
      cases hc
    unfold hydrateFieldType
    dsimp only
    rw [if_neg hng, if_pos hrep]
    unfold hydrateRepeatedFieldType
    dsimp only
    rw [hmsgT]
    simp only [bind, Except.bind, mustSeen_of_lookup g _ m hlk]
    rw [if_pos hkind, hflag]
    simp only [if_true]
    have := hydrateMapFieldType_ok g fid m k v kt vt hk0 hv1 hkt hvt
    rw [hmsgT] at this
    exact this
  · intro g pid pfx md g' mid h
    exact hydrateMessage_split g pid pfx md g' mid h

/-- Witness for C3 on the concrete map batch: the `tags` field of `.y.M`
classifies as a string-to-int32 `Map` FieldType, and the freshly hydrated
message files its map-entry child only under `mapEntries`. -/
theorem map_shape_witness :
    (gMapEx.fieldDescOf 5).label = .repeatedL ∧
    (gMapEx.entOf 2).isMapEntry = true ∧
    hydrateFieldType gMapEx 5
      = .ok (.map (gMapEx.fieldDescOf 5).type
          (FieldType.scalar .stringT).toElem (FieldType.scalar .int32T).toElem) ∧
    hydrateMessage default 0 ".y" msgMEx = .ok mapMsgRes ∧
    (∀ j ∈ (mapMsgRes.1.entOf mapMsgRes.2).msgs,
      (mapMsgRes.1.entOf j).isMapEntry = false) ∧
    (∀ j ∈ (mapMsgRes.1.entOf mapMsgRes.2).mapEntries,
      (mapMsgRes.1.entOf j).isMapEntry = true) :=
  ⟨by decide, by decide,
   map_shape.1 gMapEx 5 2 3 4 (.scalar .stringT) (.scalar .int32T)
     (by decide) (by decide) (by decide) (by decide) (by decide)
     (by decide) (by decide) (by decide) (by decide),
   rfl,
   (map_shape.2 default 0 ".y" msgMEx mapMsgRes.1 mapMsgRes.2 rfl).1,
   (map_shape.2 default 0 ".y" msgMEx mapMsgRes.1 mapMsgRes.2 rfl).2.1⟩

/-! ### Classification order inside one message: map-entry fields first -/

theorem onlyFT_fields (g g' : Graph) (h : OnlyFT g g') (i : Nat) :
    (g'.entOf i).fields = (g.entOf i).fields := by
  rw [h.2.2.2.2.2 i]

/-- A field that already carries a hydrated type keeps one through
`typeFields` (the pass only writes `some` types). -/
theorem ftype_some_mono_typeFields (fids : List Nat) :
    ∀ (g g' : Graph), typeFields g fids = .ok g' →
      ∀ i, (g.entOf i).ftype.isSome → (g'.entOf i).ftype.isSome := by
  induction fids with
  | nil =>
    intro g g' h i hi
    simp only [typeFields, pure, Except.pure, Except.ok.injEq] at h
    subst h
    exact hi
  | cons fid rest ih =>
    intro g g' h i hi
    simp only [typeFields, bind, Except.bind] at h
    split at h
    · simp at h
    next t ht =>
      refine ih _ _ h i ?_
      by_cases hfi : fid = i
      · subst hfi
        rw [entOf_updEnt_self']
        by_cases hl : fid < g.ents.length
        · rw [if_pos hl]
          rfl
        · rw [if_neg hl]
          exact hi
      · rw [entOf_updEnt_ne _ _ _ _ hfi]
        exact hi

/-- After a successful `typeFields` run every in-range listed field carries a
hydrated type. -/
theorem typeFields_sets (fids : List Nat) :
    ∀ (g g' : Graph), typeFields g fids = .ok g' →
      ∀ fid ∈ fids, fid < g.ents.length → (g'.entOf fid).ftype.isSome := by
  induction fids with
  | nil =>
    intro g g' h fid hf
    exact absurd hf (List.not_mem_nil fid)
  | cons f0 rest ih =>
    intro g g' h fid hf hlt
    simp only [typeFields, bind, Except.bind] at h
    split at h
    · simp at h
    next t ht =>
      rcases List.mem_cons.mp hf with hf | hf
      · subst hf
        refine ftype_some_mono_typeFields rest _ _ h fid ?_
        rw [entOf_updEnt_self _ _ _ hlt]
        rfl
      · exact ih _ _ h fid hf (by rw [length_updEnt]; exact hlt)

theorem ftype_some_mono_typeMapEntryFields (mes : List Nat) :
    ∀ (g g' : Graph), typeMapEntryFields g mes = .ok g' →
      ∀ i, (g.entOf i).ftype.isSome → (g'.entOf i).ftype.isSome := by
  induction mes with
  | nil =>
    intro g g' h i hi
    simp only [typeMapEntryFields, pure, Except.pure, Except.ok.injEq] at h
    subst h
    exact hi
  | cons m0 rest ih =>
    intro g g' h i hi
    simp only [typeMapEntryFields, bind, Except.bind] at h
    split at h
    · simp at h
    next g1 h1 =>
      exact ih _ _ h i (ftype_some_mono_typeFields _ _ _ h1 i hi)

/-- After the map-entry loop of one classification iteration, every in-range
field of every listed map-entry message carries a hydrated type. -/
theorem typeMapEntryFields_sets (mes : List Nat) :
    ∀ (g g' : Graph), typeMapEntryFields g mes = .ok g' →
      ∀ me ∈ mes, ∀ fid ∈ (g'.entOf me).fields, fid < g'.ents.length →
        (g'.entOf fid).ftype.isSome := by
  induction mes with
  | nil =>
    intro g g' h me hme
    exact absurd hme (List.not_mem_nil me)
  | cons m0 rest ih =>
    intro g g' h me hme fid hfid hlt
    simp only [typeMapEntryFields, bind, Except.bind] at h
    split at h
    · simp at h
    next g1 h1 =>
      have hft1 := onlyFT_typeFields _ _ _ h1
      have hftR := onlyFT_typeMapEntryFields _ _ _ h
      rcases List.mem_cons.mp hme with hme | hme
      · subst hme
        have hfg : (g'.entOf me).fields = (g.entOf me).fields := by
          rw [onlyFT_fields _ _ hftR me, onlyFT_fields _ _ hft1 me]
        have hl1 := hft1.1
        have hlR := hftR.1
        have hsome1 : (g1.entOf fid).ftype.isSome := by
          refine typeFields_sets _ _ _ h1 fid (hfg ▸ hfid) ?_
          omega
        exact ftype_some_mono_typeMapEntryFields rest _ _ h fid hsome1
      · exact ih _ _ h me hme fid hfid hlt

/-- `typePassMsg gMapEx 1` re-run on the hydrated map batch, for the witness. -/
def tpmRes : Graph :=
  match typePassMsg gMapEx 1 with
  | .ok g => g
  | .error _ => gMapEx

/-- C10.  Within one message's classification iteration the fields of its
map-entry synthetic messages are typed strictly before the message's own
fields: `typePassMsg` factors into the map-entry loop followed by the own-
field loop, and in the intermediate graph every in-range field of every
map-entry child already carries a hydrated type; consequently, for a map-entry
message with its two synthetic fields both indexed accesses are in bounds and
map hydration reads two already-resolved types and succeeds. -/
theorem map_entry_fields_typed_first :
    (∀ (g : Graph) (m : Nat) (g' : Graph), typePassMsg g m = .ok g' →
      ∃ gmid : Graph,
        typeMapEntryFields g (g.entOf m).mapEntries = .ok gmid ∧
        typeFields gmid (gmid.entOf m).fields = .ok g' ∧
        ∀ me ∈ (g.entOf m).mapEntries, ∀ fid ∈ (gmid.entOf me).fields,
          fid < gmid.ents.length → (gmid.entOf fid).ftype.isSome) ∧
    (∀ (g : Graph) (fid m : Nat),
      2 ≤ (g.entOf m).fields.length →
      (∀ f ∈ (g.entOf m).fields, (g.entOf f).ftype.isSome) →
      ∃ k v kt vt,
        (g.entOf m).fields.get? 0 = some k ∧
        (g.entOf m).fields.get? 1 = some v ∧
        (g.entOf k).ftype = some kt ∧ (g.entOf v).ftype = some vt ∧
        hydrateMapFieldType g fid m
          = .ok (.map (g.fieldDescOf fid).type kt.toElem vt.toElem)) := by
  constructor
  · intro g m g' h
    simp only [typePassMsg, bind, Except.bind] at h
    split at h
    · simp at h
    next gmid h1 =>
      exact ⟨gmid, h1, h, typeMapEntryFields_sets _ _ _ h1⟩
  · intro g fid m hlen hall
    obtain ⟨k, hk⟩ : ∃ k, (g.entOf m).fields.get? 0 = some k := by
      rw [List.get?_eq_getElem?]
      exact ⟨_, List.getElem?_eq_getElem (by omega)⟩
    obtain ⟨v, hv⟩ : ∃ v, (g.entOf m).fields.get? 1 = some v := by
      rw [List.get?_eq_getElem?]
      exact ⟨_, List.getElem?_eq_getElem (by omega)⟩
    obtain ⟨kt, hkt⟩ := Option.isSome_iff_exists.mp (hall k (List.get?_mem hk))
    obtain ⟨vt, hvt⟩ := Option.isSome_iff_exists.mp (hall v (List.get?_mem hv))
    exact ⟨k, v, kt, vt, hk, hv, hkt, hvt,
      hydrateMapFieldType_ok g fid m k v kt vt hk hv hkt hvt⟩

/-- Witness for C10 on the concrete map batch: the classification iteration
for `.y.M` succeeds, factoring through a state typing the entry fields first,
and the two-field entry `.y.M.TagsEntry` yields an in-bounds, fully resolved
map hydration. -/
theorem map_entry_fields_typed_first_witness :
    typePassMsg gMapEx 1 = .ok tpmRes ∧
    (∃ gmid : Graph,
      typeMapEntryFields gMapEx (gMapEx.entOf 1).mapEntries = .ok gmid ∧
      typeFields gmid (gmid.entOf 1).fields = .ok tpmRes ∧
      ∀ me ∈ (gMapEx.entOf 1).mapEntries, ∀ fid ∈ (gmid.entOf me).fields,
        fid < gmid.ents.length → (gmid.entOf fid).ftype.isSome) ∧
    2 ≤ (gMapEx.entOf 2).fields.length ∧
    (∃ k v kt vt,
      (gMapEx.entOf 2).fields.get? 0 = some k ∧
      (gMapEx.entOf 2).fields.get? 1 = some v ∧
      (gMapEx.entOf k).ftype = some kt ∧ (gMapEx.entOf v).ftype = some vt ∧
      hydrateMapFieldType gMapEx 5 2
        = .ok (.map (gMapEx.fieldDescOf 5).type kt.toElem vt.toElem)) :=
  ⟨rfl,
   map_entry_fields_typed_first.1 gMapEx 1 tpmRes rfl,
   by decide,
   map_entry_fields_typed_first.2 gMapEx 5 2 (by decide) (by decide)⟩

/-! ### Target resolution across the whole batch -/

/-- The per-file step of `ProcessDescriptors`. -/
def procStep (g : Graph) (f : FileDescriptorProto) : Except Err Graph := do
  let (g, pid) := hydratePackage g f
  let (g, fid) ← hydrateFile g pid f
  pure (pkgAddFile g pid fid)

theorem targets_hydratePackage (g : Graph) (f : FileDescriptorProto) :
    (hydratePackage g f).1.targets = g.targets := by
  unfold hydratePackage
  split <;> rfl

theorem ents_hydratePackage (g : Graph) (f : FileDescriptorProto) :
    (hydratePackage g f).1.ents = g.ents := by
  unfold hydratePackage
  split <;> rfl

theorem entOf_hydratePackage (g : Graph) (f : FileDescriptorProto) (i : Nat) :
    (hydratePackage g f).1.entOf i = g.entOf i := by
  unfold hydratePackage Graph.entOf
  split <;> rfl

theorem targets_pkgAddFile (g : Graph) (pid fid : Nat) :
    (pkgAddFile g pid fid).targets = g.targets := rfl

theorem entOf_pkgAddFile (g : Graph) (pid fid : Nat) (i : Nat) :
    (pkgAddFile g pid fid).entOf i = g.entOf i := rfl

theorem lookup_cons_self {l : List (String × Option Nat)} {k : String}
    {v : Option Nat} : ((k, v) :: l).lookup k = some v := by
  simp [List.lookup]

theorem lookup_cons_ne_opt {l : List (String × Option Nat)} {k k' : String}
    {v : Option Nat} (h : k ≠ k') : ((k', v) :: l).lookup k = l.lookup k := by
  have hbeq : (k == k') = false := by simp [h]
  simp [List.lookup, hbeq]

/-- Seeding the target map marks every requested name unresolved. -/
theorem lookup_map_none (l : List String) (n : String) (hn : n ∈ l) :
    (l.map (fun f => (f, (none : Option Nat)))).lookup n = some none := by
  induction l with
  | nil => cases hn
  | cons a l ih =>
    rcases List.mem_cons.mp hn with h | h
    · subst h
      simp [List.lookup]
    · by_cases hna : n = a
      · subst hna
        simp [List.lookup]
      · simp only [List.map_cons]
        rw [lookup_cons_ne_opt hna]
        exact ih h

/-- How the per-file loop treats the target map: a requested name stays at its
seeded marker until a file of that name is hydrated, at which point the entry
becomes that hydrated, build-target-flagged file entity. -/
theorem procFold_targets (fs : List FileDescriptorProto) :
    ∀ (g g' : Graph), fs.foldlM procStep g = .ok g' →
      g.ents.length ≤ g'.ents.length ∧
      (∀ i, i < g.ents.length → EntStable (g.entOf i) (g'.entOf i)) ∧
      ∀ (n : String) (r0 : Option Nat), g.targets.lookup n = some r0 →
        ((∀ f ∈ fs, f.name ≠ n) → g'.targets.lookup n = some r0) ∧
        ((∃ f ∈ fs, f.name = n) → ∃ fid f2,
          g'.targets.lookup n = some (some fid) ∧ fid < g'.ents.length ∧
          (g'.entOf fid).kind = .file ∧ (g'.entOf fid).buildTarget = true ∧
          (g'.entOf fid).name = n ∧ (g'.entOf fid).fileDesc = some f2 ∧
          f2 ∈ fs ∧ f2.name = n) := by
  induction fs with
  | nil =>
    intro g g' h
    simp only [List.foldlM_nil, pure, Except.pure, Except.ok.injEq] at h
    subst h
    refine ⟨le_refl _, fun i _ => entStable_refl _, fun n r0 hr0 =>
      ⟨fun _ => hr0, ?_⟩⟩
    rintro ⟨f, hf, _⟩
    exact absurd hf (List.not_mem_nil f)
  | cons f0 fs ih =>
    intro g g' h
    simp only [List.foldlM_cons] at h
    cases hx : procStep g f0 with
    | error e =>
      rw [hx] at h
      simp [bind, Except.bind] at h
    | ok g1 =>
      rw [hx] at h
      simp only [bind, Except.bind] at h
      simp only [procStep, bind, Except.bind] at hx
      split at hx
      · simp at hx
      next p hfile =>
        simp only [pure, Except.pure, Except.ok.injEq] at hx
        subst hx
        obtain ⟨s1, s2, s3, _, _, _, s7, s8, s9, s10, _, s12, _⟩ :=
          hydrateFile_spec (hydratePackage g f0).1 (hydratePackage g f0).2 f0
            p.1 p.2 (by rw [hfile])
        have hTgP := targets_hydratePackage g f0
        rw [hTgP] at s7 s12
        have hLgP : (hydratePackage g f0).1.ents.length = g.ents.length := by
          rw [ents_hydratePackage]
        have hL1 : (pkgAddFile p.1 (hydratePackage g f0).2 p.2).ents.length
            = p.1.ents.length := rfl
        obtain ⟨ih1, ih2, ih3⟩ := ih _ _ h
        have hstep_stable : ∀ i, i < g.ents.length →
            EntStable (g.entOf i)
              ((pkgAddFile p.1 (hydratePackage g f0).2 p.2).entOf i) := by
          intro i hi
          have := s3 i (by omega)
          rw [entOf_hydratePackage] at this
          exact this
        refine ⟨by omega, ?_, ?_⟩
        · intro i hi
          exact entStable_trans (hstep_stable i hi) (ih2 i (by omega))
        · intro n r0 hr0
          constructor
          · intro hno
            have hno0 : f0.name ≠ n := hno f0 (List.mem_cons_self f0 fs)
            have h1look : (pkgAddFile p.1 (hydratePackage g f0).2 p.2).targets.lookup n
                = some r0 := by
              rw [targets_pkgAddFile, s7]
              by_cases hc : (g.targets.lookup f0.name).isSome
              · rw [if_pos hc, lookup_cons_ne_opt (Ne.symm hno0)]
                exact hr0
              · rw [if_neg hc]
                exact hr0
            exact (ih3 n r0 h1look).1 (fun f hf => hno f (List.mem_cons_of_mem _ hf))
          · rintro ⟨fm, hfm, hfmn⟩
            by_cases hrest : ∃ f ∈ fs, f.name = n
            · obtain ⟨r1, hr1⟩ : ∃ r1,
                  (pkgAddFile p.1 (hydratePackage g f0).2 p.2).targets.lookup n
                    = some r1 := by
                rw [targets_pkgAddFile, s7]
                by_cases hc : (g.targets.lookup f0.name).isSome
                · by_cases hn0 : f0.name = n
                  · subst hn0
                    rw [if_pos hc]
                    exact ⟨_, lookup_cons_self⟩
                  · rw [if_pos hc, lookup_cons_ne_opt (Ne.symm hn0)]
                    exact ⟨r0, hr0⟩
                · rw [if_neg hc]
                  exact ⟨r0, hr0⟩
              obtain ⟨fid, f2, c1, c2, c3, c4, c5, c6, c7, c8⟩ :=
                (ih3 n r1 hr1).2 hrest
              exact ⟨fid, f2, c1, c2, c3, c4, c5, c6,
                List.mem_cons_of_mem _ c7, c8⟩
            · have hfm0 : fm = f0 := by
                rcases List.mem_cons.mp hfm with h' | h'
                · exact h'
                · exact absurd ⟨fm, h', hfmn⟩ hrest
              have hn0 : f0.name = n := hfm0 ▸ hfmn
              have hcs : (g.targets.lookup f0.name).isSome = true := by
                rw [hn0, hr0]
                rfl
              have h1look : (pkgAddFile p.1 (hydratePackage g f0).2 p.2).targets.lookup n
                  = some (some p.2) := by
                rw [targets_pkgAddFile, s7, if_pos hcs, ← hn0, lookup_cons_self]
              have hglook := (ih3 n (some p.2) h1look).1
                (fun f hf hc => hrest ⟨f, hf, hc⟩)
              have hfe := ih2 p.2 (by omega)
              rw [entOf_pkgAddFile] at hfe
              refine ⟨p.2, f0, hglook, by omega, ?_, ?_, ?_, ?_,
                List.mem_cons_self f0 fs, hn0⟩
              · rw [hfe.1, s8]
              · rw [hfe.2.2.2.2.2.1, s12, hcs]
              · rw [hfe.2.1, s9, hn0]
              · rw [hfe.2.2.2.2.2.2.2.1, s10]

/-- C7.  Target resolution: every requested file name has an entry in the
returned graph's target map; when no descriptor in the batch bears that
name the entry still holds the seeded unresolved marker, and when some
descriptor does, the entry holds the hydrated file entity built from a
matching descriptor, with its build-target flag set. -/
theorem target_resolution (req : CodeGeneratorRequest) (g : Graph)
    (h : ProcessDescriptors req = .ok g) (n : String)
    (hn : n ∈ req.fileToGenerate) :
    (g.targets.lookup n).isSome = true ∧
    ((∀ f ∈ req.protoFile, f.name ≠ n) → g.targets.lookup n = some none) ∧
    ((∃ f ∈ req.protoFile, f.name = n) → ∃ fid f2,
      g.targets.lookup n = some (some fid) ∧ fid < g.ents.length ∧
      (g.entOf fid).kind = .file ∧ (g.entOf fid).buildTarget = true ∧
      (g.entOf fid).name = n ∧ (g.entOf fid).fileDesc = some f2 ∧
      f2 ∈ req.protoFile ∧ f2.name = n) := by
  simp only [ProcessDescriptors] at h
  have h' : req.protoFile.foldlM procStep
      { targets := req.fileToGenerate.map (fun f => (f, none)) } = .ok g := h
  have hr0 : ({ targets := req.fileToGenerate.map (fun f => (f, none)) }
      : Graph).targets.lookup n = some none := lookup_map_none _ _ hn
  obtain ⟨hlen, hst, htg⟩ := procFold_targets req.protoFile _ g h'
  have hmain := htg n none hr0
  refine ⟨?_, hmain.1, hmain.2⟩
  by_cases hex : ∃ f ∈ req.protoFile, f.name = n
  · obtain ⟨fid, f2, hl, _⟩ := hmain.2 hex
    rw [hl]
    rfl
  · rw [hmain.1 (fun f hf hc => hex ⟨f, hf, hc⟩)]
    rfl

/-- A batch requesting both a present target (`a.proto`) and an absent one
(`z.proto`). -/
def reqTgtEx : CodeGeneratorRequest :=
  { fileToGenerate := ["a.proto", "z.proto"], protoFile := [fileBEx, fileAEx] }

def gTgtEx : Graph := runGraph reqTgtEx

/-- Witness for C7: the present target resolves to the hydrated,
build-target-flagged file, and the absent one keeps its unresolved marker. -/
theorem target_resolution_witness :
    ProcessDescriptors reqTgtEx = .ok gTgtEx ∧
    gTgtEx.targets.lookup "z.proto" = some none ∧
    (∃ fid f2,
      gTgtEx.targets.lookup "a.proto" = some (some fid) ∧
      fid < gTgtEx.ents.length ∧
      (gTgtEx.entOf fid).kind = .file ∧ (gTgtEx.entOf fid).buildTarget = true ∧
      (gTgtEx.entOf fid).name = "a.proto" ∧
      (gTgtEx.entOf fid).fileDesc = some f2 ∧
      f2 ∈ reqTgtEx.protoFile ∧ f2.name = "a.proto") :=
  ⟨rfl,
   (target_resolution reqTgtEx gTgtEx rfl "z.proto" (by decide)).2.1
     (by
       intro f hf
       rcases List.mem_cons.mp hf with h | h
       · subst h
         decide
       · rcases List.mem_cons.mp h with h | h
         · subst h
           decide
         · exact absurd h (List.not_mem_nil f)),
   (target_resolution reqTgtEx gTgtEx rfl "a.proto" (by decide)).2.2
     ⟨fileAEx, List.mem_cons_of_mem _ (List.mem_cons_self _ _), rfl⟩⟩

/-! ### Package find-or-create -/

theorem lookup_cons_self_any {α : Type} {l : List (String × α)} {k : String}
    {v : α} : ((k, v) :: l).lookup k = some v := by
  simp [List.lookup]

theorem lookup_cons_ne_any {α : Type} {l : List (String × α)} {k kp : String}
    {v : α} (h : k ≠ kp) : ((kp, v) :: l).lookup k = l.lookup k := by
  have hbeq : (k == kp) = false := by simp [h]
  simp [List.lookup, hbeq]

theorem lookup_mem {α : Type} {l : List (String × α)} {k : String} {v : α}
    (h : l.lookup k = some v) : (k, v) ∈ l := by
  induction l with
  | nil => simp [List.lookup] at h
  | cons p rest ih =>
    obtain ⟨pk, pv⟩ := p
    by_cases hk : k = pk
    · subst hk
      rw [lookup_cons_self_any] at h
      cases h
      exact List.mem_cons_self _ _
    · rw [lookup_cons_ne_any hk] at h
      exact List.mem_cons_of_mem _ (ih h)

theorem not_mem_keys_of_lookup_none {α : Type} {l : List (String × α)}
    {k : String} (h : l.lookup k = none) : k ∉ l.map Prod.fst := by
  induction l with
  | nil => simp
  | cons p rest ih =>
    obtain ⟨pk, pv⟩ := p
    by_cases hk : k = pk
    · subst hk
      rw [lookup_cons_self_any] at h
      cases h
    · rw [lookup_cons_ne_any hk] at h
      simp only [List.map_cons, List.mem_cons]
      rintro (hc | hc)
      · exact hk hc
      · exact ih h hc

theorem hydratePackage_eq_some (g : Graph) (f : FileDescriptorProto) (q : Nat)
    (h : g.packages.lookup f.package = some q) : hydratePackage g f = (g, q) := by
  unfold hydratePackage
  rw [h]

theorem hydratePackage_eq_none (g : Graph) (f : FileDescriptorProto)
    (h : g.packages.lookup f.package = none) :
    hydratePackage g f =
      ({ g with pkgs := g.pkgs ++ [{ name := f.package }],
                packages := (f.package, g.pkgs.length) :: g.packages },
       g.pkgs.length) := by
  unfold hydratePackage
  rw [h]

/-- `hydratePackage` is find-or-create: key uniqueness and package-record
boundedness are preserved, existing name resolutions and package file lists
are untouched, and the declared package name now resolves to the returned
(in-range) record. -/
theorem hydratePackage_spec (g : Graph) (f : FileDescriptorProto)
    (hnd : (g.packages.map Prod.fst).Nodup)
    (hB : ∀ pr ∈ g.packages, pr.2 < g.pkgs.length) :
    ((hydratePackage g f).1.packages.map Prod.fst).Nodup ∧
    (∀ pr ∈ (hydratePackage g f).1.packages,
      pr.2 < (hydratePackage g f).1.pkgs.length) ∧
    (∀ n pid, g.packages.lookup n = some pid →
      (hydratePackage g f).1.packages.lookup n = some pid) ∧
    (∀ pid j, pid < g.pkgs.length →
      j ∈ ((g.pkgs.get? pid).getD default).files →
      pid < (hydratePackage g f).1.pkgs.length ∧
      j ∈ (((hydratePackage g f).1.pkgs.get? pid).getD default).files) ∧
    (hydratePackage g f).1.packages.lookup f.package
      = some (hydratePackage g f).2 ∧
    (hydratePackage g f).2 < (hydratePackage g f).1.pkgs.length := by
  cases hl : g.packages.lookup f.package with
  | some q =>
    rw [hydratePackage_eq_some g f q hl]
    exact ⟨hnd, hB, fun n pid h => h, fun pid j h1 h2 => ⟨h1, h2⟩, hl,
      hB (f.package, q) (lookup_mem hl)⟩
  | none =>
    rw [hydratePackage_eq_none g f hl]
    refine ⟨?_, ?_, ?_, ?_, ?_, ?_⟩
    · simp only [List.map_cons]
      exact List.nodup_cons.mpr ⟨not_mem_keys_of_lookup_none hl, hnd⟩
    · intro pr hpr
      simp only [List.length_append, List.length_singleton]
      rcases List.mem_cons.mp hpr with h | h
      · subst h
        omega
      · have := hB pr h
        omega
    · intro n pid hn
      have hne : n ≠ f.package := by
        intro hc
        rw [hc, hl] at hn
        cases hn
      rw [lookup_cons_ne_any hne]
      exact hn
    · intro pid j h1 h2
      simp only [List.length_append, List.length_singleton]
      refine ⟨by omega, ?_⟩
      rw [List.get?_append h1]
      exact h2
    · exact lookup_cons_self_any
    · simp only [List.length_append, List.length_singleton]
      omega

/-- `pkg.addFile` appends the file to the addressed package record and touches
nothing else. -/
theorem pkgAddFile_spec (g : Graph) (pid fid : Nat)
    (hpid : pid < g.pkgs.length) :
    (pkgAddFile g pid fid).packages = g.packages ∧
    (pkgAddFile g pid fid).pkgs.length = g.pkgs.length ∧
    (∀ q j, q < g.pkgs.length → j ∈ ((g.pkgs.get? q).getD default).files →
      j ∈ (((pkgAddFile g pid fid).pkgs.get? q).getD default).files) ∧
    fid ∈ (((pkgAddFile g pid fid).pkgs.get? pid).getD default).files := by
  refine ⟨rfl, List.length_set g.pkgs pid _, ?_, ?_⟩
  · intro q j hq hj
    by_cases hqp : q = pid
    · subst hqp
      show j ∈ (((g.pkgs.set q _).get? q).getD default).files
      rw [List.get?_eq_getElem?, List.getElem?_set_self', List.getElem?_eq_getElem hq]
      simp only [Option.map_some, Option.getD_some]
      exact List.mem_append_left _ hj
    · show j ∈ (((g.pkgs.set pid _).get? q).getD default).files
      rw [List.get?_eq_getElem?, List.getElem?_set_ne (fun hc => hqp hc.symm)]
      rw [← List.get?_eq_getElem?]
      exact hj
  · show fid ∈ (((g.pkgs.set pid _).get? pid).getD default).files
    rw [List.get?_eq_getElem?, List.getElem?_set_self', List.getElem?_eq_getElem hpid]
    simp only [Option.map_some, Option.getD_some]
    exact List.mem_append_right _ (List.mem_singleton.mpr rfl)

/-- The per-file loop keeps the package map collision free and in range,
never disturbs existing package resolutions or package file lists, and files
every processed descriptor in the (find-or-create) package record its
declared name resolves to. -/
theorem procFold_packages (fs : List FileDescriptorProto) :
    ∀ (g g' : Graph), fs.foldlM procStep g = .ok g' →
      (g.packages.map Prod.fst).Nodup →
      (∀ pr ∈ g.packages, pr.2 < g.pkgs.length) →
      (g'.packages.map Prod.fst).Nodup ∧
      (∀ pr ∈ g'.packages, pr.2 < g'.pkgs.length) ∧
      (∀ n pid, g.packages.lookup n = some pid →
        g'.packages.lookup n = some pid) ∧
      (∀ pid j, pid < g.pkgs.length →
        j ∈ ((g.pkgs.get? pid).getD default).files →
        pid < g'.pkgs.length ∧
        j ∈ ((g'.pkgs.get? pid).getD default).files) ∧
      (∀ f ∈ fs, ∃ fid pid, fid < g'.ents.length ∧
        (g'.entOf fid).kind = .file ∧ (g'.entOf fid).fileDesc = some f ∧
        (g'.entOf fid).pkgId = pid ∧
        g'.packages.lookup f.package = some pid ∧
        fid ∈ ((g'.pkgs.get? pid).getD default).files) := by
  induction fs with
  | nil =>
    intro g g' h hnd hB
    simp only [List.foldlM_nil, pure, Except.pure, Except.ok.injEq] at h
    subst h
    refine ⟨hnd, hB, fun n pid hn => hn, fun pid j h1 h2 => ⟨h1, h2⟩, ?_⟩
    intro f hf
    exact absurd hf (List.not_mem_nil f)
  | cons f0 fs ih =>
    intro g g' h hnd hB
    simp only [List.foldlM_cons] at h
    cases hx : procStep g f0 with
    | error e =>
      rw [hx] at h
      simp [bind, Except.bind] at h
    | ok g1 =>
      rw [hx] at h
      simp only [bind, Except.bind] at h
      simp only [procStep, bind, Except.bind] at hx
      split at hx
      · simp at hx
      next p hfile =>
        simp only [pure, Except.pure, Except.ok.injEq] at hx
        subst hx
        obtain ⟨p1, p2, p3, p4, p5, p6⟩ := hydratePackage_spec g f0 hnd hB
        obtain ⟨s1, s2, s3, s4, s5, _, _, s8, _, s10, s11, _, _⟩ :=
          hydrateFile_spec (hydratePackage g f0).1 (hydratePackage g f0).2 f0
            p.1 p.2 (by rw [hfile])
        have hpid1 : (hydratePackage g f0).2 < p.1.pkgs.length := by
          rw [s5]
          exact p6
        obtain ⟨a1, a2, a3, a4⟩ :=
          pkgAddFile_spec p.1 (hydratePackage g f0).2 p.2 hpid1
        have hPk1 : (pkgAddFile p.1 (hydratePackage g f0).2 p.2).packages
            = (hydratePackage g f0).1.packages := by
          rw [a1, s4]
        have hL1 : (pkgAddFile p.1 (hydratePackage g f0).2 p.2).pkgs.length
            = (hydratePackage g f0).1.pkgs.length := by
          rw [a2, s5]
        have hnd1 : ((pkgAddFile p.1 (hydratePackage g f0).2 p.2).packages.map
            Prod.fst).Nodup := by
          rw [hPk1]
          exact p1
        have hB1 : ∀ pr ∈ (pkgAddFile p.1 (hydratePackage g f0).2 p.2).packages,
            pr.2 < (pkgAddFile p.1 (hydratePackage g f0).2 p.2).pkgs.length := by
          intro pr hpr
          rw [hPk1] at hpr
          rw [hL1]
          exact p2 pr hpr
        obtain ⟨A', B', C', D', E'⟩ := ih _ _ h hnd1 hB1
        obtain ⟨hlen', hst', _⟩ := procFold_targets fs _ g' h
        have hLgP : (hydratePackage g f0).1.ents.length = g.ents.length := by
          rw [ents_hydratePackage]
        have hLE1 : (pkgAddFile p.1 (hydratePackage g f0).2 p.2).ents.length
            = p.1.ents.length := rfl
        refine ⟨A', B', ?_, ?_, ?_⟩
        · intro n pid hn
          refine C' n pid ?_
          rw [hPk1]
          exact p3 n pid hn
        · intro pid j h1 h2
          obtain ⟨hq1, hq2⟩ := p4 pid j h1 h2
          have hq1' : pid < p.1.pkgs.length := by
            rw [s5]
            exact hq1
          have hq2' : j ∈ ((p.1.pkgs.get? pid).getD default).files := by
            rw [s5]
            exact hq2
          have := a3 pid j hq1' hq2'
          exact D' pid j (by rw [hL1]; exact hq1) this
        · intro f hf
          rcases List.mem_cons.mp hf with hf | hf
          · subst hf
            refine ⟨p.2, (hydratePackage g f).2, ?_, ?_, ?_, ?_, ?_, ?_⟩
            · have : p.2 < (pkgAddFile p.1 (hydratePackage g f).2 p.2).ents.length := by
                rw [hLE1]
                omega
              omega
            · have hfe := hst' p.2 (by rw [hLE1]; omega)
              rw [entOf_pkgAddFile] at hfe
              rw [hfe.1, s8]
            · have hfe := hst' p.2 (by rw [hLE1]; omega)
              rw [entOf_pkgAddFile] at hfe
              rw [hfe.2.2.2.2.2.2.2.1, s10]
            · have hfe := hst' p.2 (by rw [hLE1]; omega)
              rw [entOf_pkgAddFile] at hfe
              rw [hfe.2.2.2.2.2.2.1, s11]
            · refine C' f.package (hydratePackage g f).2 ?_
              rw [hPk1]
              exact p5
            · exact (D' (hydratePackage g f).2 p.2 (by rw [hL1]; exact p6) a4).2
          · exact E' _ hf

/-- C9.  Package deduplication: the returned graph's package map has exactly
one entry per distinct declared package name (collision-free keys);
`hydratePackage` is find-or-create, returning the identity-same record index
for a second file declaring the same package (including the shared unnamed
package); and every hydrated file entity carries the record its declared
package name resolves to and is filed in that one record's file list. -/
theorem package_dedup (req : CodeGeneratorRequest) (g : Graph)
    (h : ProcessDescriptors req = .ok g) :
    (g.packages.map Prod.fst).Nodup ∧
    (∀ (g0 : Graph) (f1 f2 : FileDescriptorProto), f1.package = f2.package →
      (hydratePackage (hydratePackage g0 f1).1 f2).2
        = (hydratePackage g0 f1).2) ∧
    (∀ f ∈ req.protoFile, ∃ fid pid, fid < g.ents.length ∧
      (g.entOf fid).kind = .file ∧ (g.entOf fid).fileDesc = some f ∧
      (g.entOf fid).pkgId = pid ∧
      g.packages.lookup f.package = some pid ∧
      fid ∈ ((g.pkgs.get? pid).getD default).files) := by
  simp only [ProcessDescriptors] at h
  have h' : req.protoFile.foldlM procStep
      { targets := req.fileToGenerate.map (fun f => (f, none)) } = .ok g := h
  obtain ⟨A, B, C, D, E⟩ := procFold_packages req.protoFile _ g h'
    List.nodup_nil (fun pr hpr => absurd hpr (List.not_mem_nil pr))
  refine ⟨A, ?_, E⟩
  intro g0 f1 f2 heq
  cases hl : g0.packages.lookup f1.package with
  | some q =>
    rw [hydratePackage_eq_some g0 f1 q hl]
    show (hydratePackage g0 f2).2 = q
    rw [hydratePackage_eq_some g0 f2 q (by rw [← heq]; exact hl)]
  | none =>
    rw [hydratePackage_eq_none g0 f1 hl]
    show (hydratePackage { g0 with
        pkgs := g0.pkgs ++ [{ name := f1.package }],
        packages := (f1.package, g0.pkgs.length) :: g0.packages } f2).2
      = g0.pkgs.length
    rw [hydratePackage_eq_some _ f2 g0.pkgs.length
      (by rw [← heq]; exact lookup_cons_self_any)]

/-- Witness for C9: in the two-file batch both `b.proto` and `a.proto`
declare package `x`; the keys are collision free, the second hydration
returns the identity-same record, and `a.proto`'s file entity sits in the
record its declared name resolves to. -/
theorem package_dedup_witness :
    ProcessDescriptors reqEx = .ok gEx ∧
    (gEx.packages.map Prod.fst).Nodup ∧
    (hydratePackage (hydratePackage default fileBEx).1 fileAEx).2
      = (hydratePackage default fileBEx).2 ∧
    (∃ fid pid, fid < gEx.ents.length ∧
      (gEx.entOf fid).kind = .file ∧ (gEx.entOf fid).fileDesc = some fileAEx ∧
      (gEx.entOf fid).pkgId = pid ∧
      gEx.packages.lookup fileAEx.package = some pid ∧
      fid ∈ ((gEx.pkgs.get? pid).getD default).files) :=
  ⟨rfl, (package_dedup reqEx gEx rfl).1,
   (package_dedup reqEx gEx rfl).2.1 default fileBEx fileAEx rfl,
   (package_dedup reqEx gEx rfl).2.2 fileAEx
     (List.mem_cons_of_mem _ (List.mem_cons_self _ _))⟩

/-! ### Source-location binding -/

/-- C8.  Source-location binding: a length-one path equal to the syntax field
number attaches the location as file-level syntax commentary and a length-one
path equal to the package field number as package-level commentary; any other
length-one path is skipped; every other path goes to the child walk, which
attaches the location to the entity it finds and silently leaves the graph
untouched when the path resolves to no entity — location binding is total and
never produces an error. -/
theorem source_location_binding (g : Graph) (fid : Nat) (loc : Location) :
    (loc.path = [synPath] →
      hydrateLoc g fid loc
        = g.updEnt fid fun e => { e with info := some loc }) ∧
    (loc.path = [packagePath] →
      hydrateLoc g fid loc
        = g.updEnt fid fun e => { e with pkgInfo := some loc }) ∧
    (∀ p, loc.path = [p] → p ≠ synPath → p ≠ packagePath →
      hydrateLoc g fid loc = g) ∧
    (¬ (∃ p, loc.path = [p]) →
      hydrateLoc g fid loc = attachChild g fid loc.path loc) ∧
    (∀ e, childAtPath g fid loc.path = some e →
      attachChild g fid loc.path loc
        = g.updEnt e fun x => { x with info := some loc }) ∧
    (childAtPath g fid loc.path = none →
      attachChild g fid loc.path loc = g) ∧
    (∀ fd : FileDescriptorProto, hydrateSourceCodeInfo g fid fd
      = fd.location.foldl (fun gg l => hydrateLoc gg fid l) g) := by
  refine ⟨?_, ?_, ?_, ?_, ?_, ?_, fun fd => rfl⟩
  · intro h
    simp [hydrateLoc, h, attachChild, childAtPath]
  · intro h
    simp [hydrateLoc, h, attachChild, childAtPath, synPath, packagePath]
  · intro p h hs hp
    simp [hydrateLoc, h, hs, hp]
  · intro h
    cases hpath : loc.path with
    | nil => simp [hydrateLoc, hpath]
    | cons a rest =>
      cases rest with
      | nil => exact absurd ⟨a, hpath⟩ h
      | cons b rest2 => simp [hydrateLoc, hpath]
  · intro e h
    simp only [attachChild, h]
  · intro h
    simp only [attachChild, h]

/-- Witness for C8 on the concrete batch: on `a.proto`'s file entity the
syntax path binds file commentary, the package path binds package commentary,
another length-one path is skipped, the walked path `[4,0,2,0]` reaches the
field entity and binds there, and an unresolvable path changes nothing. -/
theorem source_location_binding_witness :
    hydrateLoc gEx 2 { path := [synPath] }
      = gEx.updEnt 2 (fun e => { e with info := some { path := [synPath] } }) ∧
    hydrateLoc gEx 2 { path := [packagePath] }
      = gEx.updEnt 2
          (fun e => { e with pkgInfo := some { path := [packagePath] } }) ∧
    hydrateLoc gEx 2 { path := [3] } = gEx ∧
    childAtPath gEx 2 [4, 0, 2, 0] = some 4 ∧
    attachChild gEx 2 [4, 0, 2, 0] { path := [4, 0, 2, 0] }
      = gEx.updEnt 4 (fun x => { x with info := some { path := [4, 0, 2, 0] } }) ∧
    childAtPath gEx 2 [9, 9] = none ∧
    attachChild gEx 2 [9, 9] { path := [9, 9] } = gEx :=
  ⟨(source_location_binding gEx 2 { path := [synPath] }).1 rfl,
   (source_location_binding gEx 2 { path := [packagePath] }).2.1 rfl,
   (source_location_binding gEx 2 { path := [3] }).2.2.1 3 rfl
     (by decide) (by decide),
   by decide,
   (source_location_binding gEx 2 { path := [4, 0, 2, 0] }).2.2.2.2.1 4
     (by decide),
   by decide,
   (source_location_binding gEx 2 { path := [9, 9] }).2.2.2.2.2.1 (by decide)⟩

end pgs
